import Mathlib

/-!
Verification of the nearest-neighbor naming core of `internationalized-color`:
a shallow embedding of `src/kdtree.ts` (3-d k-d tree with branch-and-bound
nearest and k-nearest queries) and `src/naming.ts` (locale dictionary
registry, tiered naming engine, reverse lookup, translation).

Conventions of the embedding:
* JavaScript numbers are modelled by exact rationals (`ℚ`).  The source
  compares only squared distances during traversal and takes `Math.sqrt`
  when building a result; since `sqrt` is strictly monotone on nonnegative
  reals, every comparison between two distances is performed here on the
  squared values, and a comparison between a distance and a raw threshold
  `t` (`sqrt d > t`) is rendered exactly as `t < 0 ∨ t·t < d`.
  Result records therefore carry the squared distance (field `distSq`)
  where the source carries `distance = Math.sqrt(distSq)`.
* `Infinity` is modelled by `none : Option ℚ` and the sentinel best-index
  `-1` by the integer `-1`.
* JavaScript `Array.prototype.sort` is stable (ES2019); a stable sort by a
  total preorder has a unique output, modelled by `List.insertionSort`.
* `Map` / plain-object records keyed by strings are modelled by
  association lists.
-/

namespace IntlColor

/-- Point in OkLab space: the `[l, a, b]` tuple of `kdtree.ts`. -/
abbrev Point := ℚ × ℚ × ℚ

/-- Component access `p[axis]` for a 3-tuple; the source only ever uses
axes `0`, `1`, `2` (`depth % 3`). -/
def coordAt (p : Point) : Nat → ℚ
  | 0 => p.1
  | 1 => p.2.1
  | _ => p.2.2

/-- Squared Euclidean distance between two 3-d points (`sqDist` in
`kdtree.ts`). -/
def sqDist (a b : Point) : ℚ :=
  (a.1 - b.1) * (a.1 - b.1) + (a.2.1 - b.2.1) * (a.2.1 - b.2.1) +
    (a.2.2 - b.2.2) * (a.2.2 - b.2.2)

theorem sqDist_nonneg (a b : Point) : 0 ≤ sqDist a b := by
  have h1 : 0 ≤ (a.1 - b.1) * (a.1 - b.1) := mul_self_nonneg _
  have h2 : 0 ≤ (a.2.1 - b.2.1) * (a.2.1 - b.2.1) := mul_self_nonneg _
  have h3 : 0 ≤ (a.2.2 - b.2.2) * (a.2.2 - b.2.2) := mul_self_nonneg _
  unfold sqDist; linarith

theorem sqDist_eq_zero {a b : Point} (h : sqDist a b = 0) : a = b := by
  have h1 : 0 ≤ (a.1 - b.1) * (a.1 - b.1) := mul_self_nonneg _
  have h2 : 0 ≤ (a.2.1 - b.2.1) * (a.2.1 - b.2.1) := mul_self_nonneg _
  have h3 : 0 ≤ (a.2.2 - b.2.2) * (a.2.2 - b.2.2) := mul_self_nonneg _
  unfold sqDist at h
  have e1 : (a.1 - b.1) * (a.1 - b.1) = 0 := by linarith
  have e2 : (a.2.1 - b.2.1) * (a.2.1 - b.2.1) = 0 := by linarith
  have e3 : (a.2.2 - b.2.2) * (a.2.2 - b.2.2) = 0 := by linarith
  have f1 : a.1 = b.1 := by have := mul_self_eq_zero.mp e1; linarith
  have f2 : a.2.1 = b.2.1 := by have := mul_self_eq_zero.mp e2; linarith
  have f3 : a.2.2 = b.2.2 := by have := mul_self_eq_zero.mp e3; linarith
  obtain ⟨a1, a2, a3⟩ := a; obtain ⟨b1, b2, b3⟩ := b
  simp_all

/-- The squared distance dominates each single squared coordinate gap:
the geometric fact behind branch-and-bound pruning. -/
theorem sq_coord_le_sqDist (a b : Point) (ax : Nat) :
    (coordAt a ax - coordAt b ax) * (coordAt a ax - coordAt b ax) ≤ sqDist a b := by
  have h1 : 0 ≤ (a.1 - b.1) * (a.1 - b.1) := mul_self_nonneg _
  have h2 : 0 ≤ (a.2.1 - b.2.1) * (a.2.1 - b.2.1) := mul_self_nonneg _
  have h3 : 0 ≤ (a.2.2 - b.2.2) * (a.2.2 - b.2.2) := mul_self_nonneg _
  rcases ax with _ | _ | ax
  · simp only [sqDist, coordAt]; linarith
  · simp only [sqDist, coordAt]; linarith
  · simp only [sqDist, coordAt]; linarith

/-- One build item: a point plus its index into the original array. -/
abbrev Item := Point × Nat

/-- Comparator `(a, b) => a.point[axis] - b.point[axis]` of the in-place
sort in `KDTree.#build`, as the weak order `≤` consumed by a stable sort
(JavaScript `Array.prototype.sort` is stable, and a stable sort under a
total preorder has a unique output, here produced by insertion sort). -/
def axLeP (ax : Nat) (a b : Item) : Prop := coordAt a.1 ax ≤ coordAt b.1 ax

instance (ax : Nat) : DecidableRel (axLeP ax) :=
  fun a b => inferInstanceAs (Decidable (coordAt a.1 ax ≤ coordAt b.1 ax))

instance (ax : Nat) : IsTotal Item (axLeP ax) :=
  ⟨fun a b => le_total (coordAt a.1 ax) (coordAt b.1 ax)⟩

instance (ax : Nat) : IsTrans Item (axLeP ax) :=
  ⟨fun _ _ _ hab hbc => le_trans hab hbc⟩

/-- Node of the k-d tree; `leaf` stands for the source's `null`. -/
inductive KDNode where
  | leaf
  | node (point : Point) (index : Nat) (axis : Nat) (left right : KDNode)
deriving DecidableEq

/-- Recursive balanced construction of `KDTree.#build`: sort the current
slice along `depth % 3`, take the middle element (`length >> 1`) as the node,
recurse on the two halves.  The `fuel` argument only bounds the recursion
depth to keep it structural (kernel-reducible); any `fuel ≥ items.length`
gives the source's recursion, which always terminates before fuel runs out. -/
def build : Nat → List Item → Nat → KDNode
  | 0, _, _ => .leaf
  | fuel + 1, items, depth =>
    if h : items.length = 0 then .leaf
    else
      let sorted := items.insertionSort (axLeP (depth % 3))
      have hlen : sorted.length = items.length := List.length_insertionSort _ items
      have hmid : items.length / 2 < sorted.length := by omega
      .node (sorted.get ⟨items.length / 2, hmid⟩).1 (sorted.get ⟨items.length / 2, hmid⟩).2
        (depth % 3)
        (build fuel (sorted.take (items.length / 2)) (depth + 1))
        (build fuel (sorted.drop (items.length / 2 + 1)) (depth + 1))

/-- All `(point, index)` pairs stored in a tree. -/
def pts : KDNode → List Item
  | .leaf => []
  | .node p i _ l r => (p, i) :: (pts l ++ pts r)

theorem pts_build_perm : ∀ (fuel : Nat) (items : List Item), items.length ≤ fuel →
    ∀ depth, (pts (build fuel items depth)).Perm items := by
  intro fuel
  induction fuel with
  | zero =>
    intro items hlen depth
    have : items = [] := List.length_eq_zero.mp (by omega)
    simp [build, pts, this]
  | succ fuel ih =>
    intro items hlen depth
    rw [build]
    by_cases h0 : items.length = 0
    · simp only [h0, dif_pos]
      have : items = [] := List.length_eq_zero.mp h0
      simp [pts, this]
    · simp only [h0, dif_neg, not_false_iff]
      set sorted := items.insertionSort (axLeP (depth % 3)) with hs
      have hslen : sorted.length = items.length := List.length_insertionSort _ items
      have hmid : items.length / 2 < sorted.length := by omega
      set mid := items.length / 2 with hm
      have hperm1 : (pts (build fuel (sorted.take mid) (depth + 1))).Perm (sorted.take mid) := by
        apply ih
        simp only [List.length_take]; omega
      have hperm2 : (pts (build fuel (sorted.drop (mid + 1)) (depth + 1))).Perm
          (sorted.drop (mid + 1)) := by
        apply ih
        simp only [List.length_drop]; omega
      have hdecomp : sorted = sorted.take mid ++ sorted.get ⟨mid, hmid⟩ :: sorted.drop (mid + 1) := by
        conv_lhs => rw [← List.take_append_drop mid sorted]
        congr 1
        rw [List.drop_eq_getElem_cons hmid]
        simp
      simp only [pts]
      have hsp : (sorted.get ⟨mid, hmid⟩ ::
          (sorted.take mid ++ sorted.drop (mid + 1))).Perm sorted := by
        conv_rhs => rw [hdecomp]
        exact (List.perm_middle).symm
      exact ((List.Perm.cons _ (List.Perm.append hperm1 hperm2)).trans hsp).trans
        (List.perm_insertionSort _ items)

/-- Well-formedness of a k-d node: each subtree's points lie on the correct
side of the splitting plane.  Guaranteed by construction and consumed by the
pruning-correctness proofs. -/
inductive WF : KDNode → Prop
  | leaf : WF .leaf
  | node {p : Point} {i ax : Nat} {l r : KDNode}
      (hl : ∀ e ∈ pts l, coordAt e.1 ax ≤ coordAt p ax)
      (hr : ∀ e ∈ pts r, coordAt p ax ≤ coordAt e.1 ax)
      (wl : WF l) (wr : WF r) : WF (.node p i ax l r)

theorem wf_build : ∀ (fuel : Nat) (items : List Item), items.length ≤ fuel →
    ∀ depth, WF (build fuel items depth) := by
  intro fuel
  induction fuel with
  | zero =>
    intro items hlen depth
    rw [build]
    exact WF.leaf
  | succ fuel ih =>
    intro items hlen depth
    rw [build]
    by_cases h0 : items.length = 0
    · simp only [h0, dif_pos]; exact WF.leaf
    · simp only [h0, dif_neg, not_false_iff]
      set sorted := items.insertionSort (axLeP (depth % 3)) with hs
      have hslen : sorted.length = items.length := List.length_insertionSort _ items
      have hmid : items.length / 2 < sorted.length := by omega
      set mid := items.length / 2 with hm
      have hpair : List.Pairwise (axLeP (depth % 3)) sorted :=
        List.sorted_insertionSort (axLeP (depth % 3)) items
      have hpairE := List.pairwise_iff_getElem.mp hpair
      have hperm1 : (pts (build fuel (sorted.take mid) (depth + 1))).Perm (sorted.take mid) := by
        apply pts_build_perm
        simp only [List.length_take]; omega
      have hperm2 : (pts (build fuel (sorted.drop (mid + 1)) (depth + 1))).Perm
          (sorted.drop (mid + 1)) := by
        apply pts_build_perm
        simp only [List.length_drop]; omega
      apply WF.node
      · intro e he
        have he' : e ∈ sorted.take mid := hperm1.mem_iff.mp he
        obtain ⟨j, hj, hget⟩ := List.mem_iff_getElem.mp he'
        have hjlen : j < mid := by
          simp only [List.length_take] at hj; omega
        have hj' : j < sorted.length := by omega
        have hax : axLeP (depth % 3) sorted[j] (sorted.get ⟨mid, hmid⟩) :=
          hpairE j mid hj' hmid hjlen
        have hgete : sorted[j] = e := by
          rw [← hget]; exact (List.getElem_take _).symm
        rw [hgete] at hax
        exact hax
      · intro e he
        have he' : e ∈ sorted.drop (mid + 1) := hperm2.mem_iff.mp he
        obtain ⟨j, hj, hget⟩ := List.mem_iff_getElem.mp he'
        have hj2 : mid + 1 + j < sorted.length := by
          simp only [List.length_drop] at hj; omega
        have hax : axLeP (depth % 3) (sorted.get ⟨mid, hmid⟩) sorted[mid + 1 + j] :=
          hpairE mid (mid + 1 + j) hmid hj2 (by omega)
        have hgete : sorted[mid + 1 + j] = e := by
          rw [← hget]; exact (List.getElem_drop _).symm
        rw [hgete] at hax
        exact hax
      · exact ih (sorted.take mid) (by simp only [List.length_take]; omega) _
      · exact ih (sorted.drop (mid + 1)) (by simp only [List.length_drop]; omega) _

/-- Running best of `KDTree.nearest`: `bestDist` is the squared distance
(`none` models the initial `Infinity`), `bestIndex` models the initial `-1`
sentinel and otherwise the found index. -/
structure NState where
  bestDist : Option ℚ
  bestIndex : Int
deriving DecidableEq

/-- Comparison `d < b` where `b` may be `Infinity` (`none`). -/
def distLtB (d : ℚ) : Option ℚ → Bool
  | none => true
  | some b => decide (d < b)

/-- Depth-first branch-and-bound search of `KDTree.nearest`: update the best
on a strictly smaller squared distance, descend into the near branch first
(`diff <= 0` selects the left child), and visit the far branch only when the
splitting plane is closer than the current best. -/
def searchNearest (q : Point) : KDNode → NState → NState
  | .leaf, s => s
  | .node p i ax l r, s =>
    let dist := sqDist q p
    let s1 := if distLtB dist s.bestDist then NState.mk (some dist) (Int.ofNat i) else s
    let diff := coordAt q ax - coordAt p ax
    if diff ≤ 0 then
      let s2 := searchNearest q l s1
      if distLtB (diff * diff) s2.bestDist then searchNearest q r s2 else s2
    else
      let s2 := searchNearest q r s1
      if distLtB (diff * diff) s2.bestDist then searchNearest q l s2 else s2

/-- Entry point of `KDTree.nearest` (the source finally returns
`{index, distance: Math.sqrt(bestDist)}`; here the squared distance is kept). -/
def KDTree.nearest (t : KDNode) (q : Point) : NState :=
  searchNearest q t (NState.mk none (-1))

/-- Order on optional squared distances, `none` being `Infinity`. -/
def oLE : Option ℚ → Option ℚ → Prop
  | _, none => True
  | none, some _ => False
  | some a, some b => a ≤ b

/-- A finite bound: the optional distance is finite and at most `d`. -/
def oLEq : Option ℚ → ℚ → Prop
  | none, _ => False
  | some x, d => x ≤ d

theorem oLE_refl (a : Option ℚ) : oLE a a := by cases a <;> simp [oLE]

theorem oLE_trans {a b c : Option ℚ} (h1 : oLE a b) (h2 : oLE b c) : oLE a c := by
  cases a <;> cases b <;> cases c <;> simp_all [oLE]
  exact le_trans h1 h2

theorem oLE_oLEq {a b : Option ℚ} {d : ℚ} (h1 : oLE a b) (h2 : oLEq b d) : oLEq a d := by
  cases a <;> cases b <;> simp_all [oLE, oLEq]
  exact le_trans h1 h2

theorem update_oLE (d : ℚ) (i : Int) (s : NState) :
    oLE (if distLtB d s.bestDist then NState.mk (some d) i else s).bestDist s.bestDist := by
  by_cases h : distLtB d s.bestDist = true
  · simp only [h, if_pos]
    cases hb : s.bestDist with
    | none => simp [oLE]
    | some b =>
      simp only [hb, distLtB, decide_eq_true_eq] at h
      simp [oLE, le_of_lt h]
  · simp only [Bool.not_eq_true] at h
    simp [h, oLE_refl]

theorem update_oLEq (d : ℚ) (i : Int) (s : NState) :
    oLEq (if distLtB d s.bestDist then NState.mk (some d) i else s).bestDist d := by
  by_cases h : distLtB d s.bestDist = true
  · simp [h, oLEq]
  · simp only [Bool.not_eq_true] at h
    cases hb : s.bestDist with
    | none => simp [hb, distLtB] at h
    | some b =>
      have hnlt : ¬ d < b := by
        intro hc
        rw [hb] at h
        simp [distLtB, hc] at h
      have hfalse : distLtB d (some b) = false := by simp [distLtB, hnlt]
      simp [hfalse, oLEq, hb, le_of_not_lt hnlt]

theorem searchNearest_mono (q : Point) (t : KDNode) (s : NState) :
    oLE (searchNearest q t s).bestDist s.bestDist := by
  induction t generalizing s with
  | leaf => exact oLE_refl _
  | node p i ax l r ihl ihr =>
    simp only [searchNearest]
    set s1 := if distLtB (sqDist q p) s.bestDist then
        NState.mk (some (sqDist q p)) (Int.ofNat i) else s with hs1
    have h1 : oLE s1.bestDist s.bestDist := update_oLE _ _ _
    by_cases hside : coordAt q ax - coordAt p ax ≤ 0
    · simp only [hside, if_pos, if_true]
      by_cases hprune : distLtB ((coordAt q ax - coordAt p ax) * (coordAt q ax - coordAt p ax))
          (searchNearest q l s1).bestDist = true
      · simp only [hprune, if_pos, if_true]
        exact oLE_trans (ihr _) (oLE_trans (ihl _) h1)
      · simp only [hprune, Bool.false_eq_true, if_neg, not_false_iff, if_false]
        exact oLE_trans (ihl _) h1
    · simp only [hside, if_neg, not_false_iff, if_false]
      by_cases hprune : distLtB ((coordAt q ax - coordAt p ax) * (coordAt q ax - coordAt p ax))
          (searchNearest q r s1).bestDist = true
      · simp only [hprune, if_pos, if_true]
        exact oLE_trans (ihl _) (oLE_trans (ihr _) h1)
      · simp only [hprune, Bool.false_eq_true, if_neg, not_false_iff, if_false]
        exact oLE_trans (ihr _) h1

theorem searchNearest_attain (q : Point) (t : KDNode) (s : NState) :
    searchNearest q t s = s ∨
      ∃ e ∈ pts t, searchNearest q t s = NState.mk (some (sqDist q e.1)) (Int.ofNat e.2) := by
  induction t generalizing s with
  | leaf => exact Or.inl rfl
  | node p i ax l r ihl ihr =>
    simp only [searchNearest]
    set s1 := if distLtB (sqDist q p) s.bestDist then
        NState.mk (some (sqDist q p)) (Int.ofNat i) else s with hs1
    have hstep : s1 = s ∨ s1 = NState.mk (some (sqDist q p)) (Int.ofNat i) := by
      by_cases h : distLtB (sqDist q p) s.bestDist = true
      · right; simp [hs1, h]
      · left; simp only [Bool.not_eq_true] at h; simp [hs1, h]
    have hrootmem : ((p, i) : Item) ∈ pts (KDNode.node p i ax l r) := by simp [pts]
    have hlmem : ∀ e : Item, e ∈ pts l → e ∈ pts (KDNode.node p i ax l r) := by
      intro e he; simp [pts, he]
    have hrmem : ∀ e : Item, e ∈ pts r → e ∈ pts (KDNode.node p i ax l r) := by
      intro e he; simp [pts, he]
    have base : ∀ s' : NState, s' = s1 →
        (s' = s ∨ ∃ e ∈ pts (KDNode.node p i ax l r),
          s' = NState.mk (some (sqDist q e.1)) (Int.ofNat e.2)) := by
      intro s' hs'
      rcases hstep with h | h
      · left; rw [hs', h]
      · right; exact ⟨(p, i), hrootmem, by rw [hs', h]⟩
    have combine : ∀ (t2 t3 : KDNode),
        (∀ e : Item, e ∈ pts t2 → e ∈ pts (KDNode.node p i ax l r)) →
        (∀ e : Item, e ∈ pts t3 → e ∈ pts (KDNode.node p i ax l r)) →
        (∀ s' : NState, searchNearest q t2 s' = s' ∨ ∃ e ∈ pts t2,
          searchNearest q t2 s' = NState.mk (some (sqDist q e.1)) (Int.ofNat e.2)) →
        (∀ s' : NState, searchNearest q t3 s' = s' ∨ ∃ e ∈ pts t3,
          searchNearest q t3 s' = NState.mk (some (sqDist q e.1)) (Int.ofNat e.2)) →
        ((if distLtB ((coordAt q ax - coordAt p ax) * (coordAt q ax - coordAt p ax))
            (searchNearest q t2 s1).bestDist then
            searchNearest q t3 (searchNearest q t2 s1) else searchNearest q t2 s1) = s ∨
          ∃ e ∈ pts (KDNode.node p i ax l r),
            (if distLtB ((coordAt q ax - coordAt p ax) * (coordAt q ax - coordAt p ax))
              (searchNearest q t2 s1).bestDist then
              searchNearest q t3 (searchNearest q t2 s1) else searchNearest q t2 s1) =
              NState.mk (some (sqDist q e.1)) (Int.ofNat e.2)) := by
      intro t2 t3 hm2 hm3 ha2 ha3
      by_cases hprune : distLtB ((coordAt q ax - coordAt p ax) * (coordAt q ax - coordAt p ax))
          (searchNearest q t2 s1).bestDist = true
      · simp only [hprune, if_pos, if_true]
        rcases ha3 (searchNearest q t2 s1) with h3 | ⟨e, he, h3⟩
        · rw [h3]
          rcases ha2 s1 with h2 | ⟨e, he, h2⟩
          · rw [h2]; exact base s1 rfl
          · right; exact ⟨e, hm2 e he, h2⟩
        · right; exact ⟨e, hm3 e he, h3⟩
      · simp only [hprune, Bool.false_eq_true, if_neg, not_false_iff, if_false]
        rcases ha2 s1 with h2 | ⟨e, he, h2⟩
        · rw [h2]; exact base s1 rfl
        · right; exact ⟨e, hm2 e he, h2⟩
    by_cases hside : coordAt q ax - coordAt p ax ≤ 0
    · simp only [hside, if_pos, if_true]
      exact combine l r hlmem hrmem ihl ihr
    · simp only [hside, if_neg, not_false_iff, if_false]
      exact combine r l hrmem hlmem ihr ihl

theorem searchNearest_opt (q : Point) (t : KDNode) (wf : WF t) (s : NState) :
    ∀ e ∈ pts t, oLEq (searchNearest q t s).bestDist (sqDist q e.1) := by
  induction t generalizing s with
  | leaf => intro e he; simp [pts] at he
  | node p i ax l r ihl ihr =>
    cases wf with
    | node hl hr wl wr =>
      intro e he
      simp only [searchNearest]
      set s1 := if distLtB (sqDist q p) s.bestDist then
          NState.mk (some (sqDist q p)) (Int.ofNat i) else s with hs1
      have hroot1 : oLEq s1.bestDist (sqDist q p) := update_oLEq _ _ _
      simp only [pts, List.mem_cons, List.mem_append] at he
      by_cases hside : coordAt q ax - coordAt p ax ≤ 0
      · -- near branch is l, far branch is r
        simp only [hside, if_pos, if_true]
        set s2 := searchNearest q l s1 with hs2
        have hmono2 : oLE s2.bestDist s1.bestDist := searchNearest_mono q l s1
        have hroot2 : oLEq s2.bestDist (sqDist q p) := oLE_oLEq hmono2 hroot1
        have hfarbound : ∀ e' : Item, e' ∈ pts r →
            (coordAt q ax - coordAt p ax) * (coordAt q ax - coordAt p ax) ≤ sqDist q e'.1 := by
          intro e' he'
          have hax := sq_coord_le_sqDist q e'.1 ax
          have hb := hr e' he'
          nlinarith
        by_cases hprune : distLtB ((coordAt q ax - coordAt p ax) * (coordAt q ax - coordAt p ax))
            s2.bestDist = true
        · simp only [hprune, if_pos, if_true]
          have hmono3 : oLE (searchNearest q r s2).bestDist s2.bestDist :=
            searchNearest_mono q r s2
          rcases he with rfl | he | he
          · exact oLE_oLEq hmono3 hroot2
          · exact oLE_oLEq hmono3 (ihl wl s1 e he)
          · exact ihr wr s2 e he
        · simp only [hprune, Bool.false_eq_true, if_neg, not_false_iff, if_false]
          have hm : ∃ m, s2.bestDist = some m ∧
              m ≤ (coordAt q ax - coordAt p ax) * (coordAt q ax - coordAt p ax) := by
            cases hb : s2.bestDist with
            | none => simp [hb, distLtB] at hprune
            | some m =>
              refine ⟨m, rfl, ?_⟩
              simp only [hb, distLtB, decide_eq_true_eq] at hprune
              linarith [not_lt.mp hprune]
          rcases he with rfl | he | he
          · exact hroot2
          · exact ihl wl s1 e he
          · obtain ⟨m, hmeq, hmle⟩ := hm
            have := hfarbound e he
            simp only [oLEq, hmeq]; linarith
      · -- near branch is r, far branch is l
        simp only [hside, if_neg, not_false_iff, if_false]
        set s2 := searchNearest q r s1 with hs2
        have hmono2 : oLE s2.bestDist s1.bestDist := searchNearest_mono q r s1
        have hroot2 : oLEq s2.bestDist (sqDist q p) := oLE_oLEq hmono2 hroot1
        have hfarbound : ∀ e' : Item, e' ∈ pts l →
            (coordAt q ax - coordAt p ax) * (coordAt q ax - coordAt p ax) ≤ sqDist q e'.1 := by
          intro e' he'
          have hax := sq_coord_le_sqDist q e'.1 ax
          have hb := hl e' he'
          have hpos : 0 < coordAt q ax - coordAt p ax := not_le.mp hside
          nlinarith
        by_cases hprune : distLtB ((coordAt q ax - coordAt p ax) * (coordAt q ax - coordAt p ax))
            s2.bestDist = true
        · simp only [hprune, if_pos, if_true]
          have hmono3 : oLE (searchNearest q l s2).bestDist s2.bestDist :=
            searchNearest_mono q l s2
          rcases he with rfl | he | he
          · exact oLE_oLEq hmono3 hroot2
          · exact ihl wl s2 e he
          · exact oLE_oLEq hmono3 (ihr wr s1 e he)
        · simp only [hprune, Bool.false_eq_true, if_neg, not_false_iff, if_false]
          have hm : ∃ m, s2.bestDist = some m ∧
              m ≤ (coordAt q ax - coordAt p ax) * (coordAt q ax - coordAt p ax) := by
            cases hb : s2.bestDist with
            | none => simp [hb, distLtB] at hprune
            | some m =>
              refine ⟨m, rfl, ?_⟩
              simp only [hb, distLtB, decide_eq_true_eq] at hprune
              linarith [not_lt.mp hprune]
          rcases he with rfl | he | he
          · exact hroot2
          · obtain ⟨m, hmeq, hmle⟩ := hm
            have := hfarbound e he
            simp only [oLEq, hmeq]; linarith
          · exact ihr wr s1 e he

/-- Decode point `i` from the flat coordinate array (`points[3i]`,
`points[3i+1]`, `points[3i+2]`), as the `KDTree` constructor loop does. -/
def getPt (colors : List ℚ) (i : Nat) : Point :=
  (colors.getD (3 * i) 0, colors.getD (3 * i + 1) 0, colors.getD (3 * i + 2) 0)

/-- The `items` list assembled by the `KDTree` constructor from a flat
array and a point count. -/
def mkItems (colors : List ℚ) (count : Nat) : List Item :=
  (List.range count).map (fun i => (getPt colors i, i))

theorem length_mkItems (colors : List ℚ) (count : Nat) :
    (mkItems colors count).length = count := by
  simp [mkItems]

/-- The `KDTree` constructor: extract the items and build from depth `0`
(with exactly enough fuel for the recursion). -/
def kdtreeNew (points : List ℚ) (count : Nat) : KDNode :=
  build count (mkItems points count) 0

theorem wf_kdtreeNew (points : List ℚ) (count : Nat) : WF (kdtreeNew points count) :=
  wf_build count _ (le_of_eq (length_mkItems points count)) 0

theorem pts_kdtreeNew_perm (points : List ℚ) (count : Nat) :
    (pts (kdtreeNew points count)).Perm (mkItems points count) :=
  pts_build_perm count _ (le_of_eq (length_mkItems points count)) 0

/-- Single step of a brute-force linear minimum scan.  Modelled from the
spec: keep the running best, replacing it on a strictly smaller distance
(so the first minimum in scan order wins). -/
def bruteStep (q : Point) (s : NState) (e : Item) : NState :=
  if distLtB (sqDist q e.1) s.bestDist then
    NState.mk (some (sqDist q e.1)) (Int.ofNat e.2)
  else s

/-- Brute-force O(n) linear scan for the nearest point.  Modelled from the
spec sentence comparing `nearest` against "a brute-force scan over the same
data". -/
def bruteNearest (q : Point) (items : List Item) : NState :=
  items.foldl (bruteStep q) (NState.mk none (-1))

theorem bruteFold_mono (q : Point) (items : List Item) (s : NState) :
    oLE (items.foldl (bruteStep q) s).bestDist s.bestDist := by
  induction items generalizing s with
  | nil => exact oLE_refl _
  | cons e rest ih =>
    simp only [List.foldl_cons]
    exact oLE_trans (ih _) (update_oLE _ _ _)

theorem bruteFold_attain (q : Point) (items : List Item) (s : NState) :
    items.foldl (bruteStep q) s = s ∨
      ∃ e ∈ items, items.foldl (bruteStep q) s =
        NState.mk (some (sqDist q e.1)) (Int.ofNat e.2) := by
  induction items generalizing s with
  | nil => exact Or.inl rfl
  | cons e rest ih =>
    simp only [List.foldl_cons]
    rcases ih (bruteStep q s e) with h | ⟨e', he', h⟩
    · rw [h]
      by_cases hu : distLtB (sqDist q e.1) s.bestDist = true
      · right
        exact ⟨e, List.mem_cons_self e rest, by simp [bruteStep, hu]⟩
      · left
        simp only [Bool.not_eq_true] at hu
        simp [bruteStep, hu]
    · right
      exact ⟨e', List.mem_cons_of_mem e he', h⟩

theorem bruteFold_opt (q : Point) (items : List Item) (s : NState) :
    ∀ e ∈ items, oLEq (items.foldl (bruteStep q) s).bestDist (sqDist q e.1) := by
  induction items generalizing s with
  | nil => intro e he; simp at he
  | cons e0 rest ih =>
    intro e he
    simp only [List.foldl_cons]
    rcases List.mem_cons.mp he with rfl | he'
    · have hmono := bruteFold_mono q rest (bruteStep q s e)
      exact oLE_oLEq hmono (update_oLEq _ _ _)
    · exact ih _ e he'

/-- All distances from the query to the stored items are pairwise distinct
(two items at the same distance coincide). -/
def DistinctDists (q : Point) (items : List Item) : Prop :=
  ∀ e1 ∈ items, ∀ e2 ∈ items, sqDist q e1.1 = sqDist q e2.1 → e1 = e2

theorem nearest_eq_brute (q : Point) (points : List ℚ) (count : Nat)
    (hdist : DistinctDists q (mkItems points count)) :
    KDTree.nearest (kdtreeNew points count) q = bruteNearest q (mkItems points count) := by
  set items := mkItems points count with hitems
  set t := kdtreeNew points count with ht
  have hperm : (pts t).Perm items := pts_kdtreeNew_perm points count
  have hwf : WF t := wf_kdtreeNew points count
  rcases List.eq_nil_or_concat items with hnil | ⟨_, _, hne⟩
  · have hptsnil : pts t = [] := List.Perm.eq_nil (by rw [hnil] at hperm; exact hperm)
    rcases searchNearest_attain q t (NState.mk none (-1)) with h | ⟨e, he, _⟩
    · rw [KDTree.nearest, h, bruteNearest, hnil]
      rfl
    · rw [hptsnil] at he; simp at he
  · have hnonempty : ∃ e0, e0 ∈ items := by
      rcases items with _ | ⟨a, rest⟩
      · simp at hne
      · exact ⟨a, List.mem_cons_self a rest⟩
    obtain ⟨e0, he0⟩ := hnonempty
    have hopt1 : ∀ e ∈ items, oLEq (KDTree.nearest t q).bestDist (sqDist q e.1) := by
      intro e he
      exact searchNearest_opt q t hwf _ e (hperm.mem_iff.mpr he)
    have hopt2 : ∀ e ∈ items, oLEq (bruteNearest q items).bestDist (sqDist q e.1) :=
      fun e he => bruteFold_opt q items _ e he
    have hatt1 : ∃ e1 ∈ items, KDTree.nearest t q =
        NState.mk (some (sqDist q e1.1)) (Int.ofNat e1.2) := by
      rcases searchNearest_attain q t (NState.mk none (-1)) with h | ⟨e, he, h⟩
      · exfalso
        have := hopt1 e0 he0
        rw [KDTree.nearest] at this
        rw [h] at this
        simp [oLEq] at this
      · exact ⟨e, hperm.mem_iff.mp he, h⟩
    have hatt2 : ∃ e2 ∈ items, bruteNearest q items =
        NState.mk (some (sqDist q e2.1)) (Int.ofNat e2.2) := by
      rcases bruteFold_attain q items (NState.mk none (-1)) with h | h
      · exfalso
        have := hopt2 e0 he0
        simp only [bruteNearest] at this
        rw [h] at this
        simp [oLEq] at this
      · exact h
    obtain ⟨e1, he1, hr1⟩ := hatt1
    obtain ⟨e2, he2, hr2⟩ := hatt2
    have h12 : sqDist q e1.1 ≤ sqDist q e2.1 := by
      have := hopt1 e2 he2
      rw [hr1] at this
      simpa [oLEq] using this
    have h21 : sqDist q e2.1 ≤ sqDist q e1.1 := by
      have := hopt2 e1 he1
      rw [hr2] at this
      simpa [oLEq] using this
    have heq : sqDist q e1.1 = sqDist q e2.1 := le_antisymm h12 h21
    have : e1 = e2 := hdist e1 he1 e2 he2 heq
    rw [hr1, hr2, this]

/-- Heap entry of `nearestN`: `{index, dist}` with the squared distance. -/
abbrev HEntry := Nat × ℚ

/-- Array access `heap[i]` (in the source every access is in bounds; the
default is irrelevant and only makes the model total). -/
def hget (h : List HEntry) (i : Nat) : HEntry := h.getD i (0, 0)

/-- In-place swap `[heap[i], heap[j]] = [heap[j], heap[i]]`. -/
def hswap (h : List HEntry) (i j : Nat) : List HEntry :=
  (h.set i (hget h j)).set j (hget h i)

/-- Parent position `(i - 1) >> 1` in the implicit binary heap. -/
def parentIdx (i : Nat) : Nat := (i - 1) / 2

/-- Bubble an element up the max-heap (`heapUp` in `kdtree.ts`), with a
structural fuel bound (any `fuel > i` reproduces the source loop, whose
index strictly decreases). -/
def heapUpF : Nat → List HEntry → Nat → List HEntry
  | 0, h, _ => h
  | fuel + 1, h, i =>
    if i = 0 then h
    else if (hget h i).2 > (hget h (parentIdx i)).2 then
      heapUpF fuel (hswap h i (parentIdx i)) (parentIdx i)
    else h

/-- The `heapUp` loop of `kdtree.ts`. -/
def heapUp (h : List HEntry) (i : Nat) : List HEntry := heapUpF (i + 1) h i

/-- First chained `if` of `heapDown`: the larger of `i` and its left child. -/
def pickChild1 (h : List HEntry) (i size : Nat) : Nat :=
  if 2 * i + 1 < size ∧ (hget h (2 * i + 1)).2 > (hget h i).2 then 2 * i + 1 else i

/-- Second chained `if` of `heapDown`: the largest of `i` and its in-range
children. -/
def pickLargest (h : List HEntry) (i size : Nat) : Nat :=
  if 2 * i + 2 < size ∧ (hget h (2 * i + 2)).2 > (hget h (pickChild1 h i size)).2 then 2 * i + 2
  else pickChild1 h i size

theorem pickChild1_cases (h : List HEntry) (i size : Nat) :
    (pickChild1 h i size = i ∧
      (2 * i + 1 < size → (hget h (2 * i + 1)).2 ≤ (hget h i).2)) ∨
      (pickChild1 h i size = 2 * i + 1 ∧ 2 * i + 1 < size ∧
        (hget h i).2 < (hget h (2 * i + 1)).2) := by
  unfold pickChild1
  by_cases h1 : 2 * i + 1 < size ∧ (hget h (2 * i + 1)).2 > (hget h i).2
  · rw [if_pos h1]; right; exact ⟨rfl, h1.1, h1.2⟩
  · rw [if_neg h1]; left
    refine ⟨rfl, ?_⟩
    intro hlt
    by_contra hc
    exact h1 ⟨hlt, lt_of_not_le hc⟩

theorem pickLargest_cases (h : List HEntry) (i size : Nat) :
    pickLargest h i size = i ∨
      (i < pickLargest h i size ∧ pickLargest h i size < size ∧
        parentIdx (pickLargest h i size) = i ∧
        (hget h i).2 < (hget h (pickLargest h i size)).2) := by
  unfold pickLargest
  by_cases h2 : 2 * i + 2 < size ∧ (hget h (2 * i + 2)).2 > (hget h (pickChild1 h i size)).2
  · rw [if_pos h2]
    right
    refine ⟨by omega, h2.1, by simp only [parentIdx]; omega, ?_⟩
    rcases pickChild1_cases h i size with ⟨he, _⟩ | ⟨he, _, hlt⟩
    · rw [he] at h2; exact h2.2
    · rw [he] at h2; exact lt_trans hlt h2.2
  · rw [if_neg h2]
    rcases pickChild1_cases h i size with ⟨he, _⟩ | ⟨he, hsz, hlt⟩
    · left; exact he
    · right
      rw [he]
      exact ⟨by omega, hsz, by simp only [parentIdx]; omega, hlt⟩

theorem pickLargest_dom (h : List HEntry) (i size : Nat) :
    (hget h i).2 ≤ (hget h (pickLargest h i size)).2 ∧
      ∀ c, c < size → parentIdx c = i → 0 < c →
        (hget h c).2 ≤ (hget h (pickLargest h i size)).2 := by
  have hchild : ∀ c, parentIdx c = i → 0 < c → c = 2 * i + 1 ∨ c = 2 * i + 2 := by
    intro c hc h0; simp only [parentIdx] at hc; omega
  have hbase : (hget h i).2 ≤ (hget h (pickChild1 h i size)).2 ∧
      (2 * i + 1 < size → (hget h (2 * i + 1)).2 ≤ (hget h (pickChild1 h i size)).2) := by
    rcases pickChild1_cases h i size with ⟨he, hb⟩ | ⟨he, hsz, hlt⟩
    · rw [he]; exact ⟨le_refl _, hb⟩
    · rw [he]; exact ⟨le_of_lt hlt, fun _ => le_refl _⟩
  unfold pickLargest
  by_cases h2 : 2 * i + 2 < size ∧ (hget h (2 * i + 2)).2 > (hget h (pickChild1 h i size)).2
  · rw [if_pos h2]
    refine ⟨le_trans hbase.1 (le_of_lt h2.2), ?_⟩
    intro c hc hpc h0
    rcases hchild c hpc h0 with rfl | rfl
    · exact le_trans (hbase.2 hc) (le_of_lt h2.2)
    · exact le_refl _
  · rw [if_neg h2]
    refine ⟨hbase.1, ?_⟩
    intro c hc hpc h0
    rcases hchild c hpc h0 with rfl | rfl
    · exact hbase.2 hc
    · have : ¬ (hget h (2 * i + 2)).2 > (hget h (pickChild1 h i size)).2 := by tauto
      exact le_of_not_lt this

/-- Sift an element down the max-heap (`heapDown` in `kdtree.ts`), with a
structural fuel bound (any `fuel ≥ size - i` reproduces the source loop,
whose index strictly increases below `size`). -/
def heapDownF : Nat → List HEntry → Nat → Nat → List HEntry
  | 0, h, _, _ => h
  | fuel + 1, h, i, size =>
    if pickLargest h i size = i then h
    else heapDownF fuel (hswap h i (pickLargest h i size)) (pickLargest h i size) size

/-- The `heapDown` loop of `kdtree.ts`. -/
def heapDown (h : List HEntry) (i size : Nat) : List HEntry := heapDownF (size - i) h i size

/-- Max-heap shape invariant: every non-root entry is at most its parent. -/
def MaxHeap (h : List HEntry) : Prop :=
  ∀ j, 0 < j → j < h.length → (hget h j).2 ≤ (hget h (parentIdx j)).2

theorem hget_eq_getElem (h : List HEntry) (i : Nat) (hi : i < h.length) :
    hget h i = h[i] := List.getD_eq_getElem h (0, 0) hi

theorem length_hswap (h : List HEntry) (i j : Nat) :
    (hswap h i j).length = h.length := by
  simp [hswap]

theorem hget_hswap_fst (h : List HEntry) (i j : Nat) (hi : i < h.length)
    (hj : j < h.length) (hij : i ≠ j) : hget (hswap h i j) i = hget h j := by
  rw [hget_eq_getElem _ _ (by simp [length_hswap]; omega), hget_eq_getElem _ _ hj]
  simp only [hswap]
  rw [List.getElem_set_ne (by omega), List.getElem_set_self (by simpa using hi)]
  rw [hget_eq_getElem h j hj]

theorem hget_hswap_snd (h : List HEntry) (i j : Nat) (hi : i < h.length)
    (hj : j < h.length) : hget (hswap h i j) j = hget h i := by
  rw [hget_eq_getElem _ _ (by simp [length_hswap]; omega), hget_eq_getElem _ _ hi]
  simp only [hswap]
  rw [List.getElem_set_self (by simpa using hj)]
  rw [hget_eq_getElem h i hi]

theorem hget_hswap_other (h : List HEntry) (i j m : Nat) (hm : m ≠ i) (hm' : m ≠ j) :
    hget (hswap h i j) m = hget h m := by
  by_cases hmlen : m < h.length
  · rw [hget_eq_getElem _ _ (by simp [length_hswap]; omega), hget_eq_getElem _ _ hmlen]
    simp only [hswap]
    rw [List.getElem_set_ne (by omega), List.getElem_set_ne (by omega)]
  · have h2 : h.length ≤ m := le_of_not_lt hmlen
    simp only [hget]
    rw [List.getD_eq_default _ _ (by rw [length_hswap]; exact h2),
      List.getD_eq_default _ _ h2]

theorem set_multiset (h : List HEntry) (i : Nat) (a : HEntry) (hi : i < h.length) :
    (↑(h.set i a) : Multiset HEntry) + {h[i]} = ↑h + {a} := by
  have hdecomp : h.set i a = h.take i ++ a :: h.drop (i + 1) := by
    rw [List.set_eq_take_append_cons_drop]
    simp [hi]
  have hh : h = h.take i ++ h[i] :: h.drop (i + 1) := by
    conv_lhs => rw [← List.take_append_drop i h]
    congr 1
    rw [List.drop_eq_getElem_cons hi]
  have e1 : (↑(h.set i a) : Multiset HEntry) = ↑(h.take i) + ({a} + ↑(h.drop (i + 1))) := by
    rw [hdecomp]
    simp [Multiset.singleton_add]
  have e2 : (↑h : Multiset HEntry) =
      ↑(h.take i) + ({(h[i] : HEntry)} + ↑(h.drop (i + 1))) := by
    conv_lhs => rw [hh]
    simp [Multiset.singleton_add]
  rw [e1, e2]
  abel

theorem hswap_multiset (h : List HEntry) (i j : Nat) (hi : i < h.length)
    (hj : j < h.length) (hij : i ≠ j) : (↑(hswap h i j) : Multiset HEntry) = ↑h := by
  have h1 : (↑(h.set i (hget h j)) : Multiset HEntry) + {h[i]} = ↑h + {hget h j} :=
    set_multiset h i (hget h j) hi
  have hj2 : j < (h.set i (hget h j)).length := by simpa using hj
  have h2 : (↑((h.set i (hget h j)).set j (hget h i)) : Multiset HEntry) +
      {(h.set i (hget h j))[j]} = ↑(h.set i (hget h j)) + {hget h i} :=
    set_multiset _ j (hget h i) hj2
  have h3 : (h.set i (hget h j))[j] = hget h j := by
    rw [List.getElem_set_ne (by omega)]
    exact (hget_eq_getElem h j hj).symm
  rw [h3] at h2
  have h5 : (hget h i) = h[i] := hget_eq_getElem h i hi
  have step1 : (↑(hswap h i j) : Multiset HEntry) + {hget h j} =
      ↑(h.set i (hget h j)) + {hget h i} := by
    simp only [hswap]
    exact h2
  have key : (↑(hswap h i j) : Multiset HEntry) + ({hget h j} + {(h[i] : HEntry)}) =
      ↑h + ({hget h j} + {(h[i] : HEntry)}) := by
    calc (↑(hswap h i j) : Multiset HEntry) + ({hget h j} + {(h[i] : HEntry)})
        = (↑(hswap h i j) + {hget h j}) + {(h[i] : HEntry)} := by abel
      _ = (↑(h.set i (hget h j)) + {hget h i}) + {(h[i] : HEntry)} := by rw [step1]
      _ = (↑(h.set i (hget h j)) + {(h[i] : HEntry)}) + {hget h i} := by abel
      _ = (↑h + {hget h j}) + {hget h i} := by rw [h1]
      _ = ↑h + ({hget h j} + {(h[i] : HEntry)}) := by rw [h5]; abel
  exact add_right_cancel key

theorem maxHeap_root (h : List HEntry) (hh : MaxHeap h) :
    ∀ j, j < h.length → (hget h j).2 ≤ (hget h 0).2 := by
  intro j
  induction j using Nat.strong_induction_on with
  | _ j ih =>
    intro hj
    rcases Nat.eq_zero_or_pos j with rfl | hpos
    · exact le_refl _
    · have hstep := hh j hpos hj
      have hlt : parentIdx j < j := by simp only [parentIdx]; omega
      exact le_trans hstep (ih (parentIdx j) hlt (by omega))

/-- Heap property everywhere except at the edge from `i` to its parent
(the element bubbling up may still exceed its parent). -/
def HeapExceptUp (h : List HEntry) (i : Nat) : Prop :=
  ∀ j, 0 < j → j < h.length → j ≠ i → (hget h j).2 ≤ (hget h (parentIdx j)).2

/-- Children of the bubbling position are already dominated by its parent. -/
def UpChildBound (h : List HEntry) (i : Nat) : Prop :=
  0 < i → ∀ c, c < h.length → parentIdx c = i → (hget h c).2 ≤ (hget h (parentIdx i)).2

theorem heapUpF_spec : ∀ (fuel i : Nat) (h : List HEntry), i < fuel → i < h.length →
    HeapExceptUp h i → UpChildBound h i →
    MaxHeap (heapUpF fuel h i) ∧ (↑(heapUpF fuel h i) : Multiset HEntry) = ↑h ∧
      (heapUpF fuel h i).length = h.length := by
  intro fuel
  induction fuel with
  | zero =>
    intro i h hif
    omega
  | succ fuel ih =>
    intro i h hif hi hex hcb
    rw [heapUpF]
    by_cases h0 : i = 0
    · rw [if_pos h0]
      refine ⟨?_, rfl, rfl⟩
      intro j hj hjlen
      exact hex j hj hjlen (by omega)
    · rw [if_neg h0]
      set p := parentIdx i with hp
      have hplt : p < i := by simp only [hp, parentIdx]; omega
      have hplen : p < h.length := lt_trans hplt hi
      have hip : i ≠ p := by omega
      by_cases hcond : (hget h i).2 > (hget h p).2
      · rw [if_pos hcond]
        have gfst : hget (hswap h i p) i = hget h p := hget_hswap_fst h i p hi hplen hip
        have gsnd : hget (hswap h i p) p = hget h i := hget_hswap_snd h i p hi hplen
        have goth : ∀ m, m ≠ i → m ≠ p → hget (hswap h i p) m = hget h m :=
          fun m hm hm' => hget_hswap_other h i p m hm hm'
        have hlen' : (hswap h i p).length = h.length := length_hswap h i p
        have hex' : HeapExceptUp (hswap h i p) p := by
          intro j hj hjlen hjp
          rw [hlen'] at hjlen
          by_cases hji : j = i
          · subst hji
            rw [gfst, hp, gsnd]
            exact le_of_lt hcond
          · rw [goth j hji hjp]
            by_cases hpj1 : parentIdx j = i
            · rw [hpj1, gfst]
              have := hcb (by omega) j hjlen hpj1
              rw [← hp] at this
              exact this
            · by_cases hpj2 : parentIdx j = p
              · rw [hpj2, gsnd]
                have h1 := hex j hj hjlen hji
                rw [hpj2] at h1
                exact le_trans h1 (le_of_lt hcond)
              · rw [goth (parentIdx j) hpj1 hpj2]
                exact hex j hj hjlen hji
        have hcb' : UpChildBound (hswap h i p) p := by
          intro hp0 c hclen hpc
          rw [hlen'] at hclen
          have hc0 : 0 < c := by
            by_contra hc
            have : c = 0 := by omega
            subst this
            simp only [parentIdx] at hpc
            omega
          have hcp : c ≠ p := by
            have : parentIdx c < c := by simp only [parentIdx]; omega
            omega
          have hppi : parentIdx p ≠ i := by
            have : parentIdx p < p := by simp only [parentIdx]; omega
            omega
          have hppp : parentIdx p ≠ p := by
            have : parentIdx p < p := by simp only [parentIdx]; omega
            omega
          rw [goth (parentIdx p) hppi hppp]
          by_cases hci : c = i
          · subst hci
            rw [gfst]
            exact hex p hp0 hplen (by omega)
          · rw [goth c hci hcp]
            have h1 := hex c hc0 hclen hci
            rw [hpc] at h1
            exact le_trans h1 (hex p hp0 hplen (by omega))
        have hres := ih p (hswap h i p) (by omega) (by rw [hlen']; exact hplen) hex' hcb'
        refine ⟨hres.1, ?_, ?_⟩
        · rw [hres.2.1]
          exact hswap_multiset h i p hi hplen hip
        · rw [hres.2.2, hlen']
      · rw [if_neg hcond]
        refine ⟨?_, rfl, rfl⟩
        intro j hj hjlen
        by_cases hji : j = i
        · subst hji
          rw [← hp]
          exact le_of_not_lt hcond
        · exact hex j hj hjlen hji

theorem heapUp_spec (i : Nat) (h : List HEntry) (hi : i < h.length)
    (hex : HeapExceptUp h i) (hcb : UpChildBound h i) :
    MaxHeap (heapUp h i) ∧ (↑(heapUp h i) : Multiset HEntry) = ↑h ∧
      (heapUp h i).length = h.length := by
  simp only [heapUp]
  exact heapUpF_spec (i + 1) i h (by omega) hi hex hcb

/-- Heap property everywhere except at the edges from the children of `i`
(the element sifting down may still be exceeded by its children). -/
def HeapExceptDown (h : List HEntry) (i size : Nat) : Prop :=
  ∀ j, 0 < j → j < size → parentIdx j ≠ i → (hget h j).2 ≤ (hget h (parentIdx j)).2

/-- Children of the sifting position are already dominated by its parent. -/
def DownChildBound (h : List HEntry) (i size : Nat) : Prop :=
  0 < i → ∀ c, c < size → parentIdx c = i → (hget h c).2 ≤ (hget h (parentIdx i)).2

theorem heapDownF_spec : ∀ (fuel i : Nat) (h : List HEntry) (size : Nat),
    size - i ≤ fuel → size = h.length → i < size → HeapExceptDown h i size →
    DownChildBound h i size →
    MaxHeap (heapDownF fuel h i size) ∧ (↑(heapDownF fuel h i size) : Multiset HEntry) = ↑h ∧
      (heapDownF fuel h i size).length = h.length := by
  intro fuel
  induction fuel with
  | zero =>
    intro i h size hn
    omega
  | succ fuel ih =>
    intro i h size hn hsz hi hex hcb
    rw [heapDownF]
    by_cases hL : pickLargest h i size = i
    · rw [if_pos hL]
      refine ⟨?_, rfl, rfl⟩
      intro j hj hjlen
      by_cases hpj : parentIdx j = i
      · have hdom := (pickLargest_dom h i size).2 j (by omega) hpj hj
        rw [hL] at hdom
        rw [hpj]
        exact hdom
      · exact hex j hj (by omega) hpj
    · rw [if_neg hL]
      rcases pickLargest_cases h i size with hc | ⟨hlt, hsize, hpar, hval⟩
      · exact absurd hc hL
      set pl := pickLargest h i size with hpl
      have hplen : pl < h.length := by omega
      have hilen : i < h.length := by omega
      have hipl : i ≠ pl := by omega
      have gfst : hget (hswap h i pl) i = hget h pl := hget_hswap_fst h i pl hilen hplen hipl
      have gsnd : hget (hswap h i pl) pl = hget h i := hget_hswap_snd h i pl hilen hplen
      have goth : ∀ m, m ≠ i → m ≠ pl → hget (hswap h i pl) m = hget h m :=
        fun m hm hm' => hget_hswap_other h i pl m hm hm'
      have hlen' : (hswap h i pl).length = h.length := length_hswap h i pl
      have hex' : HeapExceptDown (hswap h i pl) pl size := by
        intro j hj hjsz hjp
        by_cases hjpl : j = pl
        · subst hjpl
          rw [gsnd, hpar, gfst]
          exact le_of_lt hval
        · by_cases hji : j = i
          · subst hji
            have hj0 : 0 < j := hj
            have hpij : parentIdx j < j := by simp only [parentIdx]; omega
            rw [gfst, goth (parentIdx j) (by omega) (by omega)]
            exact hcb hj pl (by omega) hpar
          · rw [goth j hji hjpl]
            by_cases hpj : parentIdx j = i
            · rw [hpj, gfst]
              exact (pickLargest_dom h i size).2 j hjsz hpj hj
            · rw [goth (parentIdx j) hpj hjp]
              exact hex j hj hjsz hpj
      have hcb' : DownChildBound (hswap h i pl) pl size := by
        intro hpl0 c hcsz hpc
        have hc0 : 0 < c := by
          by_contra hc
          have : c = 0 := by omega
          subst this
          simp only [parentIdx] at hpc
          omega
        have hcgt : pl < c := by
          have : parentIdx c < c := by simp only [parentIdx]; omega
          omega
        rw [hpar, gfst, goth c (by omega) (by omega)]
        have h1 := hex c hc0 hcsz (by rw [hpc]; omega)
        rw [hpc] at h1
        exact h1
      have hres := ih pl (hswap h i pl) size (by omega)
        (by rw [hlen']; exact hsz) (by omega) hex' hcb'
      refine ⟨hres.1, ?_, ?_⟩
      · rw [hres.2.1]
        exact hswap_multiset h i pl hilen hplen hipl
      · rw [hres.2.2, hlen']

theorem heapDown_spec (i : Nat) (h : List HEntry) (size : Nat) (hsz : size = h.length)
    (hi : i < size) (hex : HeapExceptDown h i size) (hcb : DownChildBound h i size) :
    MaxHeap (heapDown h i size) ∧ (↑(heapDown h i size) : Multiset HEntry) = ↑h ∧
      (heapDown h i size).length = h.length := by
  simp only [heapDown]
  exact heapDownF_spec (size - i) i h size (le_refl _) hsz hi hex hcb

/-- Heap entry `{index: node.index, dist}` pushed during the `nearestN`
traversal. -/
def toEntry (q : Point) (e : Item) : HEntry := (e.2, sqDist q e.1)

/-- One visited node of `nearestN`: push into the heap while below capacity,
otherwise replace the root on a strictly smaller distance. -/
def stepN (k : Nat) (q : Point) (h : List HEntry) (e : Item) : List HEntry :=
  if h.length < k then heapUp (h ++ [toEntry q e]) h.length
  else if sqDist q e.1 < (hget h 0).2 then heapDown (h.set 0 (toEntry q e)) 0 h.length
  else h

/-- The pruning bound of `nearestN`: `Infinity` while the heap is below
capacity, otherwise the current worst (root) distance. -/
def heapMax (k : Nat) (h : List HEntry) : Option ℚ :=
  if h.length < k then none else some (hget h 0).2

/-- Depth-first traversal of `KDTree.nearestN`: near branch first, far
branch only when the splitting plane beats the current k-th best. -/
def searchN (q : Point) (k : Nat) : KDNode → List HEntry → List HEntry
  | .leaf, h => h
  | .node p i ax l r, h0 =>
    let h1 := stepN k q h0 (p, i)
    if coordAt q ax - coordAt p ax ≤ 0 then
      let h2 := searchN q k l h1
      if distLtB ((coordAt q ax - coordAt p ax) * (coordAt q ax - coordAt p ax))
          (heapMax k h2) then
        searchN q k r h2
      else h2
    else
      let h2 := searchN q k r h1
      if distLtB ((coordAt q ax - coordAt p ax) * (coordAt q ax - coordAt p ax))
          (heapMax k h2) then
        searchN q k l h2
      else h2

/-- Comparator of the final result sort of `nearestN` (ascending distance;
the source compares the square roots, which orders identically). -/
def entryLeP (a b : HEntry) : Prop := a.2 ≤ b.2

instance : DecidableRel entryLeP := fun a b => inferInstanceAs (Decidable (a.2 ≤ b.2))

instance : IsTotal HEntry entryLeP := ⟨fun a b => le_total a.2 b.2⟩

instance : IsTrans HEntry entryLeP := ⟨fun _ _ _ hab hbc => le_trans hab hbc⟩

/-- Entry point of `KDTree.nearestN`: drain the heap and sort ascending by
distance (the source's stable sort of the square roots; sorting the squares
by a stable sort gives the identical list). -/
def KDTree.nearestN (t : KDNode) (q : Point) (n : Nat) : List HEntry :=
  (searchN q n t []).insertionSort entryLeP

/-- Node visit order of the `nearestN` traversal (near subtree before far
subtree), ignoring pruning. -/
def visitList (q : Point) : KDNode → List Item
  | .leaf => []
  | .node p i ax l r =>
    if coordAt q ax - coordAt p ax ≤ 0 then (p, i) :: (visitList q l ++ visitList q r)
    else (p, i) :: (visitList q r ++ visitList q l)

theorem visitList_perm (q : Point) (t : KDNode) : (visitList q t).Perm (pts t) := by
  induction t with
  | leaf => simp [visitList, pts]
  | node p i ax l r ihl ihr =>
    simp only [visitList, pts]
    by_cases hside : coordAt q ax - coordAt p ax ≤ 0
    · simp only [hside, if_pos, if_true]
      exact List.Perm.cons _ (List.Perm.append ihl ihr)
    · simp only [hside, if_neg, not_false_iff, if_false]
      exact List.Perm.cons _ ((List.Perm.append ihr ihl).trans (List.perm_append_comm))

theorem hget_set_ne (h : List HEntry) (i j : Nat) (a : HEntry) (hij : j ≠ i) :
    hget (h.set i a) j = hget h j := by
  by_cases hj : j < h.length
  · rw [hget_eq_getElem _ _ (by simpa using hj), hget_eq_getElem _ _ hj]
    exact List.getElem_set_ne (Ne.symm hij) _
  · have h2 : h.length ≤ j := le_of_not_lt hj
    simp only [hget]
    rw [List.getD_eq_default _ _ (by simpa using h2), List.getD_eq_default _ _ h2]

/-- Selection invariant of the `nearestN` traversal: the heap is a max-heap
holding `min k (processed)` of the processed entries, and every held entry is
at most every discarded one. -/
def SelInv (q : Point) (k : Nat) (P : Multiset Item) (h : List HEntry) : Prop :=
  MaxHeap h ∧ h.length = min k (Multiset.card P) ∧
    (↑h : Multiset HEntry) ≤ P.map (toEntry q) ∧
    ∀ y ∈ (↑h : Multiset HEntry), ∀ x ∈ P.map (toEntry q) - (↑h : Multiset HEntry),
      y.2 ≤ x.2

theorem selInv_nil (q : Point) (k : Nat) : SelInv q k 0 [] := by
  refine ⟨?_, by simp, by simp, ?_⟩
  · intro j hj hjlen
    simp at hjlen
  · intro y hy
    simp at hy

theorem mem_le_root (h : List HEntry) (hh : MaxHeap h) (y : HEntry) (hy : y ∈ h) :
    y.2 ≤ (hget h 0).2 := by
  obtain ⟨j, hj, he⟩ := List.mem_iff_getElem.mp hy
  have hr := maxHeap_root h hh j hj
  rw [hget_eq_getElem h j hj, he] at hr
  exact hr

theorem selInv_step (q : Point) (k : Nat) (P : Multiset Item) (h : List HEntry)
    (e : Item) (inv : SelInv q k P h) : SelInv q k (P + {e}) (stepN k q h e) := by
  obtain ⟨hheap, hlen, hsub, hdom⟩ := inv
  have hcard : Multiset.card (P.map (toEntry q)) = Multiset.card P := Multiset.card_map _ _
  have hcoecard : Multiset.card (↑h : Multiset HEntry) = h.length := Multiset.coe_card h
  unfold stepN
  by_cases hfull : h.length < k
  · rw [if_pos hfull]
    have hfullfacts : Multiset.card P < k ∧ h.length = Multiset.card P := by omega
    have hlen1 : (h ++ [toEntry q e]).length = h.length + 1 := by simp
    have hidx : h.length < (h ++ [toEntry q e]).length := by simp
    have hex : HeapExceptUp (h ++ [toEntry q e]) h.length := by
      intro j hj hjlen hjne
      rw [hlen1] at hjlen
      have hjlt : j < h.length := by omega
      have g1 : hget (h ++ [toEntry q e]) j = hget h j := by
        simp only [hget]
        exact List.getD_append _ _ _ _ hjlt
      have hplt : parentIdx j < j := by simp only [parentIdx]; omega
      have g2 : hget (h ++ [toEntry q e]) (parentIdx j) = hget h (parentIdx j) := by
        simp only [hget]
        exact List.getD_append _ _ _ _ (by omega)
      rw [g1, g2]
      exact hheap j hj hjlt
    have hcb : UpChildBound (h ++ [toEntry q e]) h.length := by
      intro h0 c hclen hpc
      simp only [parentIdx] at hpc
      rw [hlen1] at hclen
      omega
    obtain ⟨hH, hMS, hL⟩ := heapUp_spec h.length (h ++ [toEntry q e]) hidx hex hcb
    have hMS' : (↑(heapUp (h ++ [toEntry q e]) h.length) : Multiset HEntry) =
        ↑h + {toEntry q e} := by
      rw [hMS]
      rfl
    have hmapadd : (P + {e}).map (toEntry q) = P.map (toEntry q) + {toEntry q e} := by
      simp
    refine ⟨hH, ?_, ?_, ?_⟩
    · rw [hL, hlen1]
      simp only [Multiset.card_add, Multiset.card_singleton]
      omega
    · rw [hMS', hmapadd]
      exact add_le_add_right hsub _
    · have hhp : (↑h : Multiset HEntry) = P.map (toEntry q) := by
        apply Multiset.eq_of_le_of_card_le hsub
        omega
      intro y hy x hx
      rw [hMS', hmapadd, ← hhp, tsub_self] at hx
      exact absurd hx (Multiset.not_mem_zero x)
  · rw [if_neg hfull]
    have hkfacts : h.length = k ∧ k ≤ Multiset.card P := by omega
    by_cases hk0 : k = 0
    · subst hk0
      have hhnil : h = [] := List.length_eq_zero.mp (by omega)
      subst hhnil
      have hnr : ¬ sqDist q e.1 < (hget ([] : List HEntry) 0).2 := by
        simp only [hget, List.getD]
        intro hc
        simp at hc
        linarith [sqDist_nonneg q e.1]
      rw [if_neg hnr]
      refine ⟨hheap, by simp, by simp, ?_⟩
      intro y hy
      simp at hy
    · have hk1 : 1 ≤ k := by omega
      have hlen0 : 0 < h.length := by omega
      have hroot : hget h 0 = h[0] := hget_eq_getElem h 0 hlen0
      have hrootmem : hget h 0 ∈ h := by
        rw [hroot]
        exact List.getElem_mem _
      by_cases hrepl : sqDist q e.1 < (hget h 0).2
      · rw [if_pos hrepl]
        have hsetlen : (h.set 0 (toEntry q e)).length = h.length := by simp
        have hexd : HeapExceptDown (h.set 0 (toEntry q e)) 0 h.length := by
          intro j hj hjsz hpj
          rw [hget_set_ne _ _ _ _ (by omega), hget_set_ne _ _ _ _ hpj]
          exact hheap j hj hjsz
        have hcbd : DownChildBound (h.set 0 (toEntry q e)) 0 h.length := by
          intro h0
          omega
        obtain ⟨hH, hMS, hL⟩ := heapDown_spec 0 (h.set 0 (toEntry q e))
          h.length (by simp) hlen0 hexd hcbd
        have hsetms : (↑(h.set 0 (toEntry q e)) : Multiset HEntry) + {(h[0] : HEntry)} =
            ↑h + {toEntry q e} := set_multiset h 0 (toEntry q e) hlen0
        have hresms : (↑(heapDown (h.set 0 (toEntry q e)) 0 h.length) : Multiset HEntry) +
            {(h[0] : HEntry)} = ↑h + {toEntry q e} := by
          rw [hMS]; exact hsetms
        have hle1 : (↑(heapDown (h.set 0 (toEntry q e)) 0 h.length) : Multiset HEntry) ≤
            ↑h + {toEntry q e} := by
          rw [← hresms]
          exact self_le_add_right _ _
        have hmapadd : (P + {e}).map (toEntry q) = P.map (toEntry q) + {toEntry q e} := by
          simp
        refine ⟨hH, ?_, ?_, ?_⟩
        · rw [hL, hsetlen]
          simp only [Multiset.card_add, Multiset.card_singleton]
          omega
        · rw [hmapadd]
          exact le_trans hle1 (add_le_add_right hsub _)
        · intro y hy x hx
          have hle1' : (↑(heapDown (h.set 0 (toEntry q e)) 0 h.length) : Multiset HEntry) ≤
              (P + {e}).map (toEntry q) := by
            rw [hmapadd]
            exact le_trans hle1 (add_le_add_right hsub _)
          have hcancel : (P + {e}).map (toEntry q) -
              ↑(heapDown (h.set 0 (toEntry q e)) 0 h.length) +
              ↑(heapDown (h.set 0 (toEntry q e)) 0 h.length) =
              (P + {e}).map (toEntry q) := tsub_add_cancel_of_le hle1'
          have hrhs : ((P.map (toEntry q) - ↑h) + {(h[0] : HEntry)}) +
              ↑(heapDown (h.set 0 (toEntry q e)) 0 h.length) =
              (P + {e}).map (toEntry q) := by
            calc ((P.map (toEntry q) - ↑h) + {(h[0] : HEntry)}) +
                ↑(heapDown (h.set 0 (toEntry q e)) 0 h.length)
                = (P.map (toEntry q) - ↑h) +
                  (↑(heapDown (h.set 0 (toEntry q e)) 0 h.length) + {(h[0] : HEntry)}) := by
                  rw [add_assoc, add_comm ({(h[0] : HEntry)} : Multiset HEntry)]
              _ = (P.map (toEntry q) - ↑h) + (↑h + {toEntry q e}) := by rw [hresms]
              _ = ((P.map (toEntry q) - ↑h) + ↑h) + {toEntry q e} := (add_assoc _ _ _).symm
              _ = P.map (toEntry q) + {toEntry q e} := by rw [tsub_add_cancel_of_le hsub]
              _ = (P + {e}).map (toEntry q) := hmapadd.symm
          have hdropped : (P + {e}).map (toEntry q) -
              ↑(heapDown (h.set 0 (toEntry q e)) 0 h.length) =
              (P.map (toEntry q) - ↑h) + {(h[0] : HEntry)} :=
            add_right_cancel (hcancel.trans hrhs.symm)
          rw [hdropped] at hx
          have hymem : y ∈ (↑h : Multiset HEntry) + {toEntry q e} :=
            Multiset.mem_of_le hle1 hy
          rcases Multiset.mem_add.mp hx with hx1 | hx2
          · rcases Multiset.mem_add.mp hymem with hy1 | hy2
            · exact hdom y hy1 x hx1
            · have hyx : y = toEntry q e := Multiset.mem_singleton.mp hy2
              have hb : (hget h 0).2 ≤ x.2 := hdom (hget h 0) (Multiset.mem_coe.mpr hrootmem) x hx1
              rw [hyx]
              exact le_trans (le_of_lt hrepl) hb
          · have hx0 : x = (h[0] : HEntry) := Multiset.mem_singleton.mp hx2
            rcases Multiset.mem_add.mp hymem with hy1 | hy2
            · rw [hx0, ← hroot]
              exact mem_le_root h hheap y (Multiset.mem_coe.mp hy1)
            · rw [Multiset.mem_singleton.mp hy2, hx0, ← hroot]
              exact le_of_lt hrepl
      · rw [if_neg hrepl]
        have hmapadd : (P + {e}).map (toEntry q) = P.map (toEntry q) + {toEntry q e} := by
          simp
        refine ⟨hheap, ?_, ?_, ?_⟩
        · simp only [Multiset.card_add, Multiset.card_singleton]
          omega
        · rw [hmapadd]
          exact le_trans hsub (self_le_add_right _ _)
        · intro y hy x hx
          have hle1' : (↑h : Multiset HEntry) ≤ (P + {e}).map (toEntry q) := by
            rw [hmapadd]
            exact le_trans hsub (self_le_add_right _ _)
          have hcancel : (P + {e}).map (toEntry q) - ↑h + ↑h = (P + {e}).map (toEntry q) :=
            tsub_add_cancel_of_le hle1'
          have hrhs : ((P.map (toEntry q) - ↑h) + {toEntry q e}) + ↑h =
              (P + {e}).map (toEntry q) := by
            calc ((P.map (toEntry q) - ↑h) + {toEntry q e}) + ↑h
                = ((P.map (toEntry q) - ↑h) + ↑h) + {toEntry q e} := add_right_comm _ _ _
              _ = P.map (toEntry q) + {toEntry q e} := by rw [tsub_add_cancel_of_le hsub]
              _ = (P + {e}).map (toEntry q) := hmapadd.symm
          have hdropped : (P + {e}).map (toEntry q) - ↑h =
              (P.map (toEntry q) - ↑h) + {toEntry q e} :=
            add_right_cancel (hcancel.trans hrhs.symm)
          rw [hdropped] at hx
          rcases Multiset.mem_add.mp hx with hx1 | hx2
          · exact hdom y hy x hx1
          · rw [Multiset.mem_singleton.mp hx2]
            have h1 : y.2 ≤ (hget h 0).2 := mem_le_root h hheap y (Multiset.mem_coe.mp hy)
            exact le_trans h1 (le_of_not_lt hrepl)

theorem selInv_fold (q : Point) (k : Nat) (l : List Item) :
    ∀ (P : Multiset Item) (h : List HEntry), SelInv q k P h →
      SelInv q k (P + ↑l) (List.foldl (stepN k q) h l) := by
  induction l with
  | nil =>
    intro P h hinv
    simpa using hinv
  | cons e rest ih =>
    intro P h hinv
    rw [List.foldl_cons]
    have h2 := ih (P + {e}) _ (selInv_step q k P h e hinv)
    have hms : P + {e} + ↑rest = P + ↑(e :: rest) := by
      have h3 : (↑(e :: rest) : Multiset Item) = {e} + ↑rest := by
        rw [Multiset.singleton_add]
        rfl
      rw [h3, ← add_assoc]
    rwa [hms] at h2

theorem foldl_stepN_const (k : Nat) (q : Point) (h : List HEntry) (l : List Item)
    (hid : ∀ e ∈ l, stepN k q h e = h) : List.foldl (stepN k q) h l = h := by
  induction l with
  | nil => rfl
  | cons e rest ih =>
    rw [List.foldl_cons, hid e (List.mem_cons_self e rest)]
    exact ih (fun e' he' => hid e' (List.mem_cons_of_mem _ he'))

theorem searchN_eq_foldl (q : Point) (k : Nat) (t : KDNode) (wf : WF t) :
    ∀ h, searchN q k t h = List.foldl (stepN k q) h (visitList q t) := by
  induction t with
  | leaf => intro h; rfl
  | node p i ax l r ihl ihr =>
    cases wf with
    | node hlb hrb wl wr =>
      intro h
      simp only [searchN, visitList]
      by_cases hside : coordAt q ax - coordAt p ax ≤ 0
      · simp only [hside, if_pos, if_true]
        rw [List.foldl_cons, List.foldl_append]
        rw [← ihl wl (stepN k q h (p, i))]
        set h2 := searchN q k l (stepN k q h (p, i)) with hh2
        by_cases hprune : distLtB ((coordAt q ax - coordAt p ax) *
            (coordAt q ax - coordAt p ax)) (heapMax k h2) = true
        · simp only [hprune, if_pos, if_true]
          exact ihr wr h2
        · simp only [hprune, Bool.false_eq_true, if_neg, not_false_iff, if_false]
          symm
          apply foldl_stepN_const
          intro e he
          have hfull : ¬ h2.length < k := by
            intro hc
            simp [heapMax, hc, distLtB] at hprune
          have hroot : (hget h2 0).2 ≤
              (coordAt q ax - coordAt p ax) * (coordAt q ax - coordAt p ax) := by
            simp only [heapMax, hfull, if_neg, not_false_iff, distLtB,
              decide_eq_true_eq] at hprune
            exact le_of_not_lt hprune
          have hmem : e ∈ pts r := (visitList_perm q r).mem_iff.mp he
          have hgeo : (coordAt q ax - coordAt p ax) * (coordAt q ax - coordAt p ax) ≤
              sqDist q e.1 := by
            have hax := sq_coord_le_sqDist q e.1 ax
            have hb := hrb e hmem
            nlinarith
          unfold stepN
          rw [if_neg hfull, if_neg (by linarith [le_trans hroot hgeo])]
      · simp only [hside, if_neg, not_false_iff, if_false]
        rw [List.foldl_cons, List.foldl_append]
        rw [← ihr wr (stepN k q h (p, i))]
        set h2 := searchN q k r (stepN k q h (p, i)) with hh2
        by_cases hprune : distLtB ((coordAt q ax - coordAt p ax) *
            (coordAt q ax - coordAt p ax)) (heapMax k h2) = true
        · simp only [hprune, if_pos, if_true]
          exact ihl wl h2
        · simp only [hprune, Bool.false_eq_true, if_neg, not_false_iff, if_false]
          symm
          apply foldl_stepN_const
          intro e he
          have hfull : ¬ h2.length < k := by
            intro hc
            simp [heapMax, hc, distLtB] at hprune
          have hroot : (hget h2 0).2 ≤
              (coordAt q ax - coordAt p ax) * (coordAt q ax - coordAt p ax) := by
            simp only [heapMax, hfull, if_neg, not_false_iff, distLtB,
              decide_eq_true_eq] at hprune
            exact le_of_not_lt hprune
          have hmem : e ∈ pts l := (visitList_perm q l).mem_iff.mp he
          have hgeo : (coordAt q ax - coordAt p ax) * (coordAt q ax - coordAt p ax) ≤
              sqDist q e.1 := by
            have hax := sq_coord_le_sqDist q e.1 ax
            have hb := hlb e hmem
            have hpos : 0 < coordAt q ax - coordAt p ax := not_le.mp hside
            nlinarith
          unfold stepN
          rw [if_neg hfull, if_neg (by linarith [le_trans hroot hgeo])]

theorem searchN_inv (q : Point) (k : Nat) (points : List ℚ) (count : Nat) :
    SelInv q k ↑(mkItems points count) (searchN q k (kdtreeNew points count) []) := by
  rw [searchN_eq_foldl q k _ (wf_kdtreeNew points count)]
  have hfold := selInv_fold q k (visitList q (kdtreeNew points count)) 0 [] (selInv_nil q k)
  rw [zero_add] at hfold
  have hperm : (visitList q (kdtreeNew points count)).Perm (mkItems points count) :=
    (visitList_perm q _).trans (pts_kdtreeNew_perm points count)
  rwa [Multiset.coe_eq_coe.mpr hperm] at hfold

/-- Brute-force k-smallest selection.  Modelled from the spec: stable-sort
all entries ascending by distance and keep the first `k`. -/
def bruteTopK (q : Point) (items : List Item) (k : Nat) : List HEntry :=
  ((items.map (toEntry q)).insertionSort entryLeP).take k

/-- A size-m selection that is dominated by its complement is unique when
all distances are distinct. -/
theorem topk_unique (B A T : Multiset HEntry) (hA : A ≤ B) (hT : T ≤ B)
    (hcard : Multiset.card A = Multiset.card T)
    (hdomA : ∀ a ∈ A, ∀ b ∈ B - A, a.2 ≤ b.2)
    (hdomT : ∀ a ∈ T, ∀ b ∈ B - T, a.2 ≤ b.2)
    (hinj : ∀ x ∈ B, ∀ y ∈ B, x.2 = y.2 → x = y) : A = T := by
  by_contra hne
  have hAT : ¬ A ≤ T := by
    intro hle
    exact hne (Multiset.eq_of_le_of_card_le hle (le_of_eq hcard.symm))
  have hTA : ¬ T ≤ A := by
    intro hle
    exact hne ((Multiset.eq_of_le_of_card_le hle (le_of_eq hcard)).symm)
  have hATne : A - T ≠ 0 := fun hz => hAT (tsub_eq_zero_iff_le.mp hz)
  have hTAne : T - A ≠ 0 := fun hz => hTA (tsub_eq_zero_iff_le.mp hz)
  obtain ⟨a, ha⟩ := Multiset.exists_mem_of_ne_zero hATne
  obtain ⟨t, ht⟩ := Multiset.exists_mem_of_ne_zero hTAne
  have haA : a ∈ A := Multiset.mem_of_le tsub_le_self ha
  have htT : t ∈ T := Multiset.mem_of_le tsub_le_self ht
  have haBT : a ∈ B - T := Multiset.mem_of_le (tsub_le_tsub_right hA T) ha
  have htBA : t ∈ B - A := Multiset.mem_of_le (tsub_le_tsub_right hT A) ht
  have h1 : t.2 ≤ a.2 := hdomT t htT a haBT
  have h2 : a.2 ≤ t.2 := hdomA a haA t htBA
  have heq : a = t := hinj a (Multiset.mem_of_le hA haA) t (Multiset.mem_of_le hT htT)
    (le_antisymm h2 h1)
  have hca : Multiset.count a T < Multiset.count a A := by
    have hc := Multiset.count_pos.mpr ha
    rw [Multiset.count_sub] at hc
    omega
  have hct : Multiset.count t A < Multiset.count t T := by
    have hc := Multiset.count_pos.mpr ht
    rw [Multiset.count_sub] at hc
    omega
  rw [heq] at hca
  omega

/-- Two lists sorted ascending by distance with the same multiset of
entries coincide when all distances in them are distinct. -/
theorem sorted_unique : ∀ (l1 l2 : List HEntry), (↑l1 : Multiset HEntry) = ↑l2 →
    List.Pairwise (fun a b : HEntry => a.2 ≤ b.2) l1 →
    List.Pairwise (fun a b : HEntry => a.2 ≤ b.2) l2 →
    (∀ x ∈ l1, ∀ y ∈ l1, x.2 = y.2 → x = y) → l1 = l2 := by
  intro l1
  induction l1 with
  | nil =>
    intro l2 hms _ _ _
    have := (Multiset.coe_eq_coe.mp hms).symm
    exact (List.Perm.eq_nil this).symm
  | cons a t ih =>
    intro l2 hms hs1 hs2 hinj
    have hperm : (a :: t).Perm l2 := Multiset.coe_eq_coe.mp hms
    cases l2 with
    | nil => exact absurd hperm.symm (by simp)
    | cons b t2 =>
      have hbmem : b ∈ a :: t := hperm.mem_iff.mpr (List.mem_cons_self b t2)
      have hamem : a ∈ b :: t2 := hperm.mem_iff.mp (List.mem_cons_self a t)
      have hab : a.2 ≤ b.2 := by
        rcases List.mem_cons.mp hbmem with rfl | hbt
        · exact le_refl _
        · exact (List.rel_of_pairwise_cons hs1) hbt
      have hba : b.2 ≤ a.2 := by
        rcases List.mem_cons.mp hamem with heq | hat
        · rw [heq]
        · exact (List.rel_of_pairwise_cons hs2) hat
      have haeqb : a = b := hinj a (List.mem_cons_self a t) b hbmem (le_antisymm hab hba)
      subst haeqb
      have htperm : t.Perm t2 := hperm.cons_inv
      have hteq : t = t2 := by
        apply ih t2 (Multiset.coe_eq_coe.mpr htperm) (List.Pairwise.of_cons hs1)
          (List.Pairwise.of_cons hs2)
        intro x hx y hy hxy
        exact hinj x (List.mem_cons_of_mem _ hx) y (List.mem_cons_of_mem _ hy) hxy
      rw [hteq]

theorem nearestN_length (points : List ℚ) (count k : Nat) (q : Point) :
    (KDTree.nearestN (kdtreeNew points count) q k).length = min k count := by
  have hinv := searchN_inv q k points count
  have hlen := hinv.2.1
  simp only [Multiset.coe_card, length_mkItems] at hlen
  simp only [KDTree.nearestN, List.length_insertionSort]
  exact hlen

theorem nearestN_sorted (points : List ℚ) (count k : Nat) (q : Point) :
    List.Pairwise (fun a b : HEntry => a.2 ≤ b.2)
      (KDTree.nearestN (kdtreeNew points count) q k) := by
  have hp := List.sorted_insertionSort entryLeP (searchN q k (kdtreeNew points count) [])
  simp only [KDTree.nearestN]
  exact hp.imp (fun hab => hab)

theorem nearestN_eq_bruteTopK (points : List ℚ) (count k : Nat) (q : Point)
    (hdist : DistinctDists q (mkItems points count)) :
    KDTree.nearestN (kdtreeNew points count) q k =
      bruteTopK q (mkItems points count) k := by
  set items := mkItems points count with hitems
  set entries := items.map (toEntry q) with hentries
  set sortedAll := entries.insertionSort entryLeP with hsorted
  have hinv := searchN_inv q k points count
  obtain ⟨hheap, hlen, hsub, hdom⟩ := hinv
  -- injectivity of distances on entries
  have hinjB : ∀ x ∈ (↑entries : Multiset HEntry), ∀ y ∈ (↑entries : Multiset HEntry),
      x.2 = y.2 → x = y := by
    intro x hx y hy hxy
    rw [Multiset.mem_coe, hentries, List.mem_map] at hx hy
    obtain ⟨e1, he1, rfl⟩ := hx
    obtain ⟨e2, he2, rfl⟩ := hy
    simp only [toEntry] at hxy ⊢
    rw [hdist e1 he1 e2 he2 hxy]
  -- facts about the sorted list
  have hsortperm : sortedAll.Perm entries := List.perm_insertionSort entryLeP entries
  have hsortlen : sortedAll.length = entries.length := List.length_insertionSort entryLeP entries
  have hentlen : entries.length = count := by
    rw [hentries, List.length_map, hitems, length_mkItems]
  have hpair : List.Pairwise (fun a b : HEntry => a.2 ≤ b.2) sortedAll := by
    have hp := List.sorted_insertionSort entryLeP entries
    exact hp.imp (fun hab => hab)
  -- the brute-force selection as a multiset
  set T := (↑(sortedAll.take k) : Multiset HEntry) with hT
  set B := (↑entries : Multiset HEntry) with hB
  have hTsub : T ≤ B := by
    have h1 : (sortedAll.take k).Subperm sortedAll := (List.take_sublist k sortedAll).subperm
    have h2 : (↑(sortedAll.take k) : Multiset HEntry) ≤ ↑sortedAll := Multiset.coe_le.mpr h1
    rwa [Multiset.coe_eq_coe.mpr hsortperm] at h2
  have hTcard : Multiset.card T = min k count := by
    rw [hT, Multiset.coe_card, List.length_take, hsortlen, hentlen]
  have hdecomp : sortedAll = sortedAll.take k ++ sortedAll.drop k :=
    (List.take_append_drop k sortedAll).symm
  have hBsplit : B = T + ↑(sortedAll.drop k) := by
    rw [hB, hT, ← Multiset.coe_eq_coe.mpr hsortperm]
    conv_lhs => rw [hdecomp]
    rfl
  have hTdom : ∀ a ∈ T, ∀ b ∈ B - T, a.2 ≤ b.2 := by
    intro a ha b hb
    rw [hBsplit, add_tsub_cancel_left] at hb
    have hpa : List.Pairwise (fun a b : HEntry => a.2 ≤ b.2)
        (sortedAll.take k ++ sortedAll.drop k) := by
      rw [← hdecomp]
      exact hpair
    exact (List.pairwise_append.mp hpa).2.2 a (Multiset.mem_coe.mp ha) b (Multiset.mem_coe.mp hb)
  -- the heap selection as a multiset
  set A := (↑(searchN q k (kdtreeNew points count) []) : Multiset HEntry) with hA
  have hmapcoe : (↑items : Multiset Item).map (toEntry q) = B := by
    rw [hB, hentries]
    exact Multiset.map_coe _ _
  have hAsub : A ≤ B := by
    rw [← hmapcoe]
    exact hsub
  have hAcard : Multiset.card A = min k count := by
    rw [hA, Multiset.coe_card]
    have := hlen
    simp only [Multiset.coe_card, length_mkItems] at this
    exact this
  have hAdom : ∀ a ∈ A, ∀ b ∈ B - A, a.2 ≤ b.2 := by
    intro a ha b hb
    apply hdom a ha
    rwa [hmapcoe]
  have hmseq : A = T :=
    topk_unique B A T hAsub hTsub (by rw [hAcard, hTcard]) hAdom hTdom hinjB
  -- both final lists are sorted with the same multiset and distinct distances
  have hresperm : (↑(KDTree.nearestN (kdtreeNew points count) q k) : Multiset HEntry) =
      ↑(bruteTopK q items k) := by
    simp only [KDTree.nearestN, bruteTopK]
    have h1 : ((searchN q k (kdtreeNew points count) []).insertionSort entryLeP).Perm
        (searchN q k (kdtreeNew points count) []) := List.perm_insertionSort _ _
    rw [Multiset.coe_eq_coe.mpr h1]
    exact hmseq
  apply sorted_unique _ _ hresperm (nearestN_sorted points count k q)
  · have hpt : List.Pairwise (fun a b : HEntry => a.2 ≤ b.2) (sortedAll.take k) := by
      have := hpair
      rw [hdecomp] at this
      exact (List.pairwise_append.mp this).1
    exact hpt
  · intro x hx y hy hxy
    have hx' : x ∈ (↑(KDTree.nearestN (kdtreeNew points count) q k) : Multiset HEntry) :=
      Multiset.mem_coe.mpr hx
    have hy' : y ∈ (↑(KDTree.nearestN (kdtreeNew points count) q k) : Multiset HEntry) :=
      Multiset.mem_coe.mpr hy
    have hms : (↑(KDTree.nearestN (kdtreeNew points count) q k) : Multiset HEntry) = A := by
      simp only [KDTree.nearestN]
      exact Multiset.coe_eq_coe.mpr (List.perm_insertionSort _ _)
    rw [hms] at hx' hy'
    exact hinjB x (Multiset.mem_of_le hAsub hx') y (Multiset.mem_of_le hAsub hy') hxy

/-! Embedding of `naming.ts`: tiers, dictionaries, the module-level registry
(`dictionaries` record and `trees` cache), and the query layer.  A `Color` is
its OkLab triple: color-space conversion and parsing are out of scope, so
`toOklabQuery` is the identity and `Color.create('oklab', …)` is the
triple itself. -/

/-- Naming tier (the `Level` union type of `naming.ts`). -/
inductive Level where
  | basic
  | extended
  | traditional
deriving DecidableEq, BEq

/-- The fixed tier order `LEVELS` of `naming.ts`. -/
def LEVELS : List Level := [.basic, .extended, .traditional]

/-- The string of a tier, as used in cache keys. -/
def levelStr : Level → String
  | .basic => "basic"
  | .extended => "extended"
  | .traditional => "traditional"

/-- One tier's data (`ColorNameSet`): names aligned with a flat OkLab
coordinate array. -/
structure ColorNameSet where
  names : List String
  colors : List ℚ
deriving DecidableEq

/-- A locale dictionary (`ColorDictionary`): identifier, attribution, and up
to three optional tiers. -/
structure ColorDictionary where
  locale : String
  source : String
  basic : Option ColorNameSet := none
  extended : Option ColorNameSet := none
  traditional : Option ColorNameSet := none
deriving DecidableEq

/-- The indexed access `dict[level]`. -/
def tierOf (d : ColorDictionary) : Level → Option ColorNameSet
  | .basic => d.basic
  | .extended => d.extended
  | .traditional => d.traditional

/-- A color value, reduced to its OkLab coordinate triple. -/
abbrev Color := Point

/-- Options of `nameColor` (`NamingOptions`): maximum tier and distance
threshold.  The threshold is the raw (non-squared) distance bound of the
source. -/
structure NamingOptions where
  level : Option Level := none
  threshold : Option ℚ := none

/-- A naming result (`ColorName`).  `distSq` holds the squared distance
where the source holds `distance = sqrt distSq`. -/
structure ColorName where
  name : String
  color : Color
  distSq : ℚ
  source : String
  level : Level
deriving DecidableEq

/-- A translation result (`TranslationResult`); `distSq` as in `ColorName`. -/
structure TranslationResult where
  name : String
  sourceColor : Color
  targetColor : Color
  distSq : ℚ
deriving DecidableEq

/-- Model of `String.prototype.toLowerCase` (and of Lean's `String.toLower`):
lowercase every character. -/
def jsToLower (s : String) : String := ⟨s.data.map Char.toLower⟩

/-- The comparison `result.distance > threshold` of the source, where
`result.distance = sqrt dsq` with `dsq ≥ 0`: exactly `t < 0 ∨ t·t < dsq`. -/
def sqrtGtB (dsq t : ℚ) : Bool := decide (t < 0) || decide (t * t < dsq)

/-- String-keyed map lookup (`Record` access / `Map.get`): first matching
key. -/
def lookupKey {α : Type} : List (String × α) → String → Option α
  | [], _ => none
  | e :: rest, key => if e.1 = key then some e.2 else lookupKey rest key

/-- String-keyed map update (`Record` assignment / `Map.set`): replace in
place, else append. -/
def setKey {α : Type} : List (String × α) → String → α → List (String × α)
  | [], key, v => [(key, v)]
  | e :: rest, key, v => if e.1 = key then (key, v) :: rest else e :: setKey rest key v

/-- String-keyed map removal (`Map.delete`). -/
def delKey {α : Type} (m : List (String × α)) (key : String) : List (String × α) :=
  m.filter (fun e => decide (e.1 ≠ key))

/-- The module-level mutable state of `naming.ts`: the `dictionaries` record
and the `trees` cache keyed by `locale:level`. -/
structure RegistryState where
  dictionaries : List (String × ColorDictionary)
  trees : List (String × KDNode)
deriving DecidableEq

/-- The cache key `` `${locale}:${level}` ``. -/
def treeKey (locale : String) (level : Level) : String :=
  locale ++ ":" ++ levelStr level

/-- One tier of the merge in `useLocale`: `if (dict.X && !existing.X)
existing.X = dict.X` — the stored tier wins when present. -/
def mergeTier : Option ColorNameSet → Option ColorNameSet → Option ColorNameSet
  | some b, _ => some b
  | none, incoming => incoming

/-- The merged dictionary produced by re-registering a locale. -/
def mergeDict (existing incoming : ColorDictionary) : ColorDictionary :=
  { existing with
    basic := mergeTier existing.basic incoming.basic
    extended := mergeTier existing.extended incoming.extended
    traditional := mergeTier existing.traditional incoming.traditional }

/-- Register a dictionary (`useLocale`): merge tiers into an existing entry
and drop all three cached trees for the locale, or store a copy of the
dictionary. -/
def useLocale (s : RegistryState) (dict : ColorDictionary) : RegistryState :=
  match lookupKey s.dictionaries dict.locale with
  | some existing =>
    { dictionaries := setKey s.dictionaries dict.locale (mergeDict existing dict)
      trees := delKey (delKey (delKey s.trees (treeKey dict.locale .basic))
        (treeKey dict.locale .extended)) (treeKey dict.locale .traditional) }
  | none =>
    { s with dictionaries := setKey s.dictionaries dict.locale dict }

/-- Retrieve a registered dictionary (`getLocale`). -/
def getLocale (s : RegistryState) (locale : String) : Option ColorDictionary :=
  lookupKey s.dictionaries locale

/-- A locale argument: a registry key or an inline dictionary. -/
abbrev LocaleRef := String ⊕ ColorDictionary

/-- Resolve a locale reference (`resolveDict`). -/
def resolveDict (s : RegistryState) : LocaleRef → Option ColorDictionary
  | .inl str => lookupKey s.dictionaries str
  | .inr d => some d

/-- The cache to use (`resolveTreeCache`): the shared module cache for
string locales, none for inline dictionaries. -/
abbrev TreeCache := Option (List (String × KDNode))

def resolveTreeCache (s : RegistryState) : LocaleRef → TreeCache
  | .inl _ => some s.trees
  | .inr _ => none

/-- Tiers to search (`getLevels`): all tiers up to and including the
requested one, or all three when unspecified. -/
def getLevels : Option Level → List Level
  | none => LEVELS
  | some lv => LEVELS.take (LEVELS.indexOf lv + 1)

/-- Get or build the k-d tree of a tier (`getTree`), threading the cache:
serve a cached tree, return `none` for an absent or empty tier, else build
and (when a cache is in use) store it. -/
def getTree (dict : ColorDictionary) (level : Level) (cache : TreeCache) :
    Option KDNode × TreeCache :=
  let key := treeKey dict.locale level
  match cache.bind (fun m => lookupKey m key) with
  | some t => (some t, cache)
  | none =>
    match tierOf dict level with
    | none => (none, cache)
    | some ns =>
      if ns.names.length = 0 then (none, cache)
      else
        let tree := kdtreeNew ns.colors ns.names.length
        (some tree, cache.map (fun m => setKey m key tree))

/-- Read entry `index` of a tier as a color (`makeColorFromSet`). -/
def makeColorFromSet (set : ColorNameSet) (index : Nat) : Color :=
  getPt set.colors index

/-- The tier loop of `nameColor`: query each tier's tree, skip results over
the threshold, and keep the strictly closest.  `result.bestDist.getD 0` and
`names.getD … ""` model the source's use of `result.distance` and
`names[result.index]!`, which are only reached with `result.index ≥ 0` and
hence a finite distance and an in-range index.  The comparison
`result.distance < best.distance` of square roots is performed on the
squares, which is the same comparison. -/
def nameLoop (q : Point) (dict : ColorDictionary) (opts : NamingOptions) :
    List Level → TreeCache → Option ColorName → Option ColorName × TreeCache
  | [], cache, best => (best, cache)
  | level :: rest, cache, best =>
    match getTree dict level cache with
    | (none, cache') => nameLoop q dict opts rest cache' best
    | (some tree, cache') =>
      let ns := (tierOf dict level).getD ⟨[], []⟩
      let result := KDTree.nearest tree q
      if result.bestIndex < 0 then nameLoop q dict opts rest cache' best
      else
        let rdsq := result.bestDist.getD 0
        if opts.threshold.elim false (fun t => sqrtGtB rdsq t) then
          nameLoop q dict opts rest cache' best
        else if best.elim true (fun b => decide (rdsq < b.distSq)) then
          nameLoop q dict opts rest cache'
            (some ⟨ns.names.getD result.bestIndex.toNat "",
              makeColorFromSet ns result.bestIndex.toNat, rdsq, dict.source, level⟩)
        else nameLoop q dict opts rest cache' best

/-- Find the closest named color (`nameColor`), returning the result and the
updated module state (only the tree cache is ever written, and only for
string locales). -/
def nameColorSt (s : RegistryState) (c : Color) (locale : LocaleRef)
    (opts : NamingOptions) : Option ColorName × RegistryState :=
  match resolveDict s locale with
  | none => (none, s)
  | some dict =>
    let res := nameLoop c dict opts (getLevels opts.level) (resolveTreeCache s locale) none
    (res.1, { s with trees := res.2.getD s.trees })

/-- Comparator of the candidate sort in `nearestColors` (ascending
distance, compared on squares as in `nameLoop`). -/
def colorNameLeP (a b : ColorName) : Prop := a.distSq ≤ b.distSq

instance : DecidableRel colorNameLeP :=
  fun a b => inferInstanceAs (Decidable (a.distSq ≤ b.distSq))

instance : IsTotal ColorName colorNameLeP := ⟨fun a b => le_total a.distSq b.distSq⟩

instance : IsTrans ColorName colorNameLeP := ⟨fun _ _ _ hab hbc => le_trans hab hbc⟩

/-- The tier loop of `nearestColors`: collect up to `count` candidates per
tier over all three tiers. -/
def nearestLoop (q : Point) (dict : ColorDictionary) (count : Nat) :
    List Level → TreeCache → List ColorName → List ColorName × TreeCache
  | [], cache, acc => (acc, cache)
  | level :: rest, cache, acc =>
    match getTree dict level cache with
    | (none, cache') => nearestLoop q dict count rest cache' acc
    | (some tree, cache') =>
      let ns := (tierOf dict level).getD ⟨[], []⟩
      let results := KDTree.nearestN tree q count
      nearestLoop q dict count rest cache'
        (acc ++ results.map (fun r => ⟨ns.names.getD r.1 "", makeColorFromSet ns r.1,
          r.2, dict.source, level⟩))

/-- Find the `count` closest named colors (`nearestColors`, default count 5):
merge all tiers' candidates, sort ascending by distance, truncate. -/
def nearestColorsSt (s : RegistryState) (c : Color) (locale : LocaleRef)
    (count : Nat) : List ColorName × RegistryState :=
  match resolveDict s locale with
  | none => ([], s)
  | some dict =>
    let res := nearestLoop c dict count LEVELS (resolveTreeCache s locale) []
    ((res.1.insertionSort colorNameLeP).take count, { s with trees := res.2.getD s.trees })

/-- The tier loop of `lookupColor`: first case-folded exact match in tier
order, then storage order. -/
def lookupLoop (nameLower : String) (dict : ColorDictionary) : List Level → Option Color
  | [] => none
  | level :: rest =>
    match tierOf dict level with
    | none => lookupLoop nameLower dict rest
    | some ns =>
      match ns.names.findIdx? (fun n => decide (jsToLower n = nameLower)) with
      | some idx => some (makeColorFromSet ns idx)
      | none => lookupLoop nameLower dict rest

/-- Look up a color by name (`lookupColor`); never touches the tree cache. -/
def lookupColorSt (s : RegistryState) (name : String) (locale : LocaleRef) : Option Color :=
  match resolveDict s locale with
  | none => none
  | some dict => lookupLoop (jsToLower name) dict LEVELS

/-- Translate a name between locales (`translateColor`): reverse-lookup in
the source locale, then best-match naming in the target locale with no
options. -/
def translateSt (s : RegistryState) (name : String) (fr tgt : LocaleRef) :
    Option TranslationResult × RegistryState :=
  match lookupColorSt s name fr with
  | none => (none, s)
  | some sourceColor =>
    match nameColorSt s sourceColor tgt ⟨none, none⟩ with
    | (none, s') => (none, s')
    | (some m, s') => (some ⟨m.name, sourceColor, m.color, m.distSq⟩, s')

/-! Support lemmas for the naming layer. -/

theorem lookupKey_setKey_self {α : Type} (m : List (String × α)) (key : String) (v : α) :
    lookupKey (setKey m key v) key = some v := by
  induction m with
  | nil => simp [setKey, lookupKey]
  | cons e rest ih =>
    by_cases he : e.1 = key
    · simp [setKey, he, lookupKey]
    · simp [setKey, he, lookupKey, ih]

theorem lookupKey_setKey_ne {α : Type} (m : List (String × α)) (key key' : String) (v : α)
    (h : key' ≠ key) : lookupKey (setKey m key v) key' = lookupKey m key' := by
  have hne : ¬ key = key' := fun hc => h hc.symm
  induction m with
  | nil =>
    simp only [setKey, lookupKey]
    rw [if_neg hne]
  | cons e rest ih =>
    by_cases he : e.1 = key
    · rw [show setKey (e :: rest) key v = (key, v) :: rest by simp [setKey, he]]
      simp only [lookupKey]
      rw [if_neg hne, if_neg (by rw [he]; exact hne)]
    · rw [show setKey (e :: rest) key v = e :: setKey rest key v by simp [setKey, he]]
      simp only [lookupKey]
      by_cases he' : e.1 = key'
      · rw [if_pos he', if_pos he']
      · rw [if_neg he', if_neg he']
        exact ih

theorem lookupKey_delKey_self {α : Type} (m : List (String × α)) (key : String) :
    lookupKey (delKey m key) key = none := by
  induction m with
  | nil => simp [delKey, lookupKey]
  | cons e rest ih =>
    by_cases he : e.1 = key
    · rw [show delKey (e :: rest) key = delKey rest key by simp [delKey, he]]
      exact ih
    · rw [show delKey (e :: rest) key = e :: delKey rest key by simp [delKey, he]]
      simp only [lookupKey]
      rw [if_neg he]
      exact ih

theorem lookupKey_delKey_ne {α : Type} (m : List (String × α)) (key key' : String)
    (h : key' ≠ key) : lookupKey (delKey m key) key' = lookupKey m key' := by
  induction m with
  | nil => simp [delKey, lookupKey]
  | cons e rest ih =>
    by_cases he : e.1 = key
    · rw [show delKey (e :: rest) key = delKey rest key by simp [delKey, he]]
      rw [ih]
      simp only [lookupKey]
      rw [if_neg (by rw [he]; exact fun hc => h hc.symm)]
    · rw [show delKey (e :: rest) key = e :: delKey rest key by simp [delKey, he]]
      simp only [lookupKey]
      by_cases he' : e.1 = key'
      · rw [if_pos he', if_pos he']
      · rw [if_neg he', if_neg he']
        exact ih

theorem levelStr_length : ∀ lv : Level, (levelStr lv).length =
    match lv with | .basic => 5 | .extended => 8 | .traditional => 11 := by
  intro lv
  cases lv <;> decide

theorem treeKey_inj {loc : String} {lv lv' : Level}
    (h : treeKey loc lv = treeKey loc lv') : lv = lv' := by
  have hlen := congrArg String.length h
  simp only [treeKey, String.length_append] at hlen
  have h1 := levelStr_length lv
  have h2 := levelStr_length lv'
  cases lv <;> cases lv' <;> simp_all

/-- Coherence of the tree cache with the registered dictionary: a cached
tree under one of this dictionary's keys is the canonical tree of a
non-empty tier (the registry invariant of the spec). -/
def CacheOK (dict : ColorDictionary) : TreeCache → Prop
  | none => True
  | some m => ∀ level t, lookupKey m (treeKey dict.locale level) = some t →
      ∃ ns, tierOf dict level = some ns ∧ ns.names.length ≠ 0 ∧
        t = kdtreeNew ns.colors ns.names.length

/-- The per-tier point items the tier's tree is built from. -/
def tierItems (dict : ColorDictionary) (level : Level) : List Item :=
  match tierOf dict level with
  | none => []
  | some ns => mkItems ns.colors ns.names.length

theorem getTree_spec (dict : ColorDictionary) (level : Level) (cache : TreeCache)
    (hok : CacheOK dict cache) :
    ((getTree dict level cache).1 = match tierOf dict level with
      | none => none
      | some ns => if ns.names.length = 0 then none
          else some (kdtreeNew ns.colors ns.names.length)) ∧
    CacheOK dict (getTree dict level cache).2 ∧
    ((getTree dict level cache).2 = none ↔ cache = none) := by
  simp only [getTree]
  cases hhit : cache.bind (fun m => lookupKey m (treeKey dict.locale level)) with
  | some t =>
    obtain ⟨m, hm, hlk⟩ : ∃ m, cache = some m ∧
        lookupKey m (treeKey dict.locale level) = some t := by
      cases cache with
      | none => simp at hhit
      | some m => exact ⟨m, rfl, by simpa using hhit⟩
    subst hm
    obtain ⟨ns, hns, hne, ht⟩ := hok level t hlk
    dsimp only
    refine ⟨?_, hok, by simp⟩
    rw [hns]
    dsimp only
    rw [if_neg hne, ht]
  | none =>
    dsimp only
    cases hns : tierOf dict level with
    | none =>
      dsimp only
      exact ⟨rfl, hok, Iff.rfl⟩
    | some ns =>
      dsimp only
      by_cases hne : ns.names.length = 0
      · rw [if_pos hne, if_pos hne]
        exact ⟨rfl, hok, Iff.rfl⟩
      · rw [if_neg hne, if_neg hne]
        refine ⟨rfl, ?_, ?_⟩
        · cases cache with
          | none => trivial
          | some m =>
            intro lv' t' hlk'
            simp only [Option.map_some] at hlk'
            by_cases hkey : treeKey dict.locale lv' = treeKey dict.locale level
            · have hlv : lv' = level := treeKey_inj hkey
              subst hlv
              rw [hkey, lookupKey_setKey_self] at hlk'
              exact ⟨ns, hns, hne, (Option.some.injEq _ _ ▸ hlk' : _ = _).symm⟩
            · rw [lookupKey_setKey_ne _ _ _ _ hkey] at hlk'
              exact hok lv' t' hlk'
        · cases cache with
          | none => simp
          | some m => simp

theorem mem_mkItems {colors : List ℚ} {count : Nat} {e : Item} :
    e ∈ mkItems colors count ↔ e.2 < count ∧ e.1 = getPt colors e.2 := by
  simp only [mkItems, List.mem_map, List.mem_range]
  constructor
  · rintro ⟨i, hi, rfl⟩
    exact ⟨hi, rfl⟩
  · rintro ⟨h1, h2⟩
    exact ⟨e.2, h1, by rw [← h2]⟩

/-- Exceeding a threshold is monotone in the distance. -/
theorem sqrtGtB_mono {m d t : ℚ} (hmd : m ≤ d) (h : sqrtGtB m t = true) :
    sqrtGtB d t = true := by
  simp only [sqrtGtB, Bool.or_eq_true, decide_eq_true_eq] at *
  rcases h with h | h
  · exact Or.inl h
  · exact Or.inr (lt_of_lt_of_le h hmd)

/-- Characterization of a `nearest` call on the canonical tree of a
non-empty tier. -/
theorem tier_nearest (q : Point) (ns : ColorNameSet) (hne : ns.names.length ≠ 0) :
    ∃ (i : Nat) (m : ℚ),
      KDTree.nearest (kdtreeNew ns.colors ns.names.length) q = ⟨some m, Int.ofNat i⟩ ∧
      i < ns.names.length ∧ m = sqDist q (getPt ns.colors i) ∧
      ∀ e ∈ mkItems ns.colors ns.names.length, m ≤ sqDist q e.1 := by
  set items := mkItems ns.colors ns.names.length with hitems
  set t := kdtreeNew ns.colors ns.names.length with ht
  have hperm : (pts t).Perm items := pts_kdtreeNew_perm ns.colors ns.names.length
  have hwf : WF t := wf_kdtreeNew ns.colors ns.names.length
  have he0 : (getPt ns.colors 0, 0) ∈ items := by
    rw [hitems, mem_mkItems]
    exact ⟨by omega, rfl⟩
  have hopt : ∀ e ∈ items, oLEq (KDTree.nearest t q).bestDist (sqDist q e.1) := by
    intro e he
    exact searchNearest_opt q t hwf _ e (hperm.mem_iff.mpr he)
  rcases searchNearest_attain q t (NState.mk none (-1)) with h | ⟨e, he, h⟩
  · exfalso
    have := hopt _ he0
    rw [KDTree.nearest] at this
    rw [h] at this
    simp [oLEq] at this
  · have hei : e ∈ items := hperm.mem_iff.mp he
    have hshape := mem_mkItems.mp (by rw [hitems] at hei; exact hei)
    refine ⟨e.2, sqDist q e.1, ?_, hshape.1, ?_, ?_⟩
    · rw [KDTree.nearest] at *
      exact h
    · rw [hshape.2]
    · intro e' he'
      have := hopt e' he'
      rw [KDTree.nearest] at this
      rw [h] at this
      simpa [oLEq] using this

/-- The per-tier skip condition of `nameColor`: an absent or empty tier, or
(when a threshold is given) a tier whose every point exceeds it. -/
def SkipTier (q : Point) (dict : ColorDictionary) (th : Option ℚ) (level : Level) : Prop :=
  tierItems dict level = [] ∨
    ∃ tv, th = some tv ∧ ∀ e ∈ tierItems dict level, sqrtGtB (sqDist q e.1) tv = true

/-- A result attained at a concrete tier entry: all fields come from entry
`i` of the result's tier. -/
def AttainedAt (q : Point) (dict : ColorDictionary) (out : ColorName) : Prop :=
  ∃ ns i, tierOf dict out.level = some ns ∧ i < ns.names.length ∧
    out.name = ns.names.getD i "" ∧ out.color = getPt ns.colors i ∧
    out.distSq = sqDist q (getPt ns.colors i) ∧ out.source = dict.source

theorem nameLoop_step (q : Point) (dict : ColorDictionary) (opts : NamingOptions)
    (level : Level) (rest : List Level) (cache : TreeCache) (best : Option ColorName)
    (hok : CacheOK dict cache) :
    ∃ cache' best',
      nameLoop q dict opts (level :: rest) cache best =
        nameLoop q dict opts rest cache' best' ∧
      CacheOK dict cache' ∧ (cache = none → cache' = none) ∧
      ((best' = best ∧ SkipTier q dict opts.threshold level) ∨
       (∃ cand, best' = some cand ∧ cand.level = level ∧
          AttainedAt q dict cand ∧
          (∀ e ∈ tierItems dict level, cand.distSq ≤ sqDist q e.1) ∧
          (∀ tv, opts.threshold = some tv → sqrtGtB cand.distSq tv = false) ∧
          (best = none ∨ ∃ b, best = some b ∧ cand.distSq < b.distSq)) ∨
       (best' = best ∧ ∃ b m, best = some b ∧ b.distSq ≤ m ∧
          (∃ e ∈ tierItems dict level, m = sqDist q e.1) ∧
          (∀ e ∈ tierItems dict level, m ≤ sqDist q e.1))) := by
  obtain ⟨hval, hok', hnone⟩ := getTree_spec dict level cache hok
  simp only [nameLoop]
  rcases hg : getTree dict level cache with ⟨treeOpt, cache'⟩
  rw [hg] at hval hok' hnone
  dsimp only at hval hok' hnone ⊢
  cases treeOpt with
  | none =>
    refine ⟨cache', best, rfl, hok', fun hc => hnone.mpr hc, Or.inl ⟨rfl, Or.inl ?_⟩⟩
    -- the tier is absent or empty, so its item list is empty
    cases hns : tierOf dict level with
    | none => simp [tierItems, hns]
    | some ns =>
      rw [hns] at hval
      dsimp only at hval
      by_cases hlen : ns.names.length = 0
      · simp [tierItems, hns, mkItems, hlen]
      · rw [if_neg hlen] at hval
        exact absurd hval.symm (by simp)
  | some tree =>
    -- the tier is present and non-empty, and the tree is canonical
    obtain ⟨ns, hns, hlen, htree⟩ : ∃ ns, tierOf dict level = some ns ∧
        ns.names.length ≠ 0 ∧ tree = kdtreeNew ns.colors ns.names.length := by
      cases hns : tierOf dict level with
      | none =>
        rw [hns] at hval
        dsimp only at hval
        exact absurd hval (by simp)
      | some ns =>
        rw [hns] at hval
        dsimp only at hval
        by_cases hl : ns.names.length = 0
        · rw [if_pos hl] at hval; exact absurd hval (by simp)
        · rw [if_neg hl] at hval
          exact ⟨ns, rfl, hl, by injection hval⟩
    have htierItems : tierItems dict level = mkItems ns.colors ns.names.length := by
      simp [tierItems, hns]
    obtain ⟨i, m, hres, hi, hm, hmin⟩ := tier_nearest q ns hlen
    rw [htree]
    dsimp only
    rw [hres]
    have hgetD : (tierOf dict level).getD ⟨[], []⟩ = ns := by rw [hns]; rfl
    rw [hgetD]
    dsimp only
    rw [if_neg (by exact not_lt.mpr (Int.ofNat_zero_le i) : ¬ (Int.ofNat i : Int) < 0)]
    have hmem : ((getPt ns.colors i, i) : Item) ∈ tierItems dict level := by
      rw [htierItems, mem_mkItems]
      exact ⟨hi, rfl⟩
    cases hth : opts.threshold with
    | some tv =>
      dsimp only [Option.elim]
      by_cases hskip : sqrtGtB ((some m).getD 0) tv = true
      · rw [if_pos hskip]
        refine ⟨cache', best, rfl, hok', fun hc => hnone.mpr hc, Or.inl ⟨rfl, Or.inr ?_⟩⟩
        refine ⟨tv, rfl, ?_⟩
        intro e he
        exact sqrtGtB_mono (hmin e (by rwa [htierItems] at he)) hskip
      · rw [if_neg hskip]
        cases best with
        | none =>
          dsimp only [Option.elim]
          rw [if_pos rfl]
          refine ⟨cache', _, rfl, hok', fun hc => hnone.mpr hc, Or.inr (Or.inl ?_)⟩
          refine ⟨_, rfl, rfl, ?_, ?_, ?_, Or.inl rfl⟩
          · exact ⟨ns, i, hns, hi, rfl, rfl, by simp [hm], rfl⟩
          · intro e he
            exact hmin e (by rwa [htierItems] at he)
          · intro tv' htv'
            injection htv' with htv'
            subst htv'
            simpa using hskip
        | some b =>
          by_cases hbetter : ((some m).getD 0 : ℚ) < b.distSq
          · dsimp only [Option.elim]
            rw [if_pos (by simpa using hbetter)]
            refine ⟨cache', _, rfl, hok', fun hc => hnone.mpr hc, Or.inr (Or.inl ?_)⟩
            refine ⟨_, rfl, rfl, ?_, ?_, ?_, Or.inr ⟨b, rfl, by simpa using hbetter⟩⟩
            · exact ⟨ns, i, hns, hi, rfl, rfl, by simp [hm], rfl⟩
            · intro e he
              exact hmin e (by rwa [htierItems] at he)
            · intro tv' htv'
              injection htv' with htv'
              subst htv'
              simpa using hskip
          · dsimp only [Option.elim]
            rw [if_neg (by simpa using hbetter)]
            refine ⟨cache', _, rfl, hok', fun hc => hnone.mpr hc, Or.inr (Or.inr ?_)⟩
            refine ⟨rfl, b, m, rfl, ?_, ⟨_, hmem, by rw [hm]⟩, ?_⟩
            · simp only [Option.getD] at hbetter
              exact le_of_not_lt hbetter
            · intro e he
              exact hmin e (by rwa [htierItems] at he)
    | none =>
      dsimp only [Option.elim]
      rw [if_neg (by simp)]
      cases best with
      | none =>
        dsimp only [Option.elim]
        rw [if_pos rfl]
        refine ⟨cache', _, rfl, hok', fun hc => hnone.mpr hc, Or.inr (Or.inl ?_)⟩
        refine ⟨_, rfl, rfl, ?_, ?_, ?_, Or.inl rfl⟩
        · exact ⟨ns, i, hns, hi, rfl, rfl, by simp [hm], rfl⟩
        · intro e he
          exact hmin e (by rwa [htierItems] at he)
        · intro tv' htv'
          exact absurd htv' (by simp)
      | some b =>
        by_cases hbetter : ((some m).getD 0 : ℚ) < b.distSq
        · dsimp only [Option.elim]
          rw [if_pos (by simpa using hbetter)]
          refine ⟨cache', _, rfl, hok', fun hc => hnone.mpr hc, Or.inr (Or.inl ?_)⟩
          refine ⟨_, rfl, rfl, ?_, ?_, ?_, Or.inr ⟨b, rfl, by simpa using hbetter⟩⟩
          · exact ⟨ns, i, hns, hi, rfl, rfl, by simp [hm], rfl⟩
          · intro e he
            exact hmin e (by rwa [htierItems] at he)
          · intro tv' htv'
            exact absurd htv' (by simp)
        · dsimp only [Option.elim]
          rw [if_neg (by simpa using hbetter)]
          refine ⟨cache', _, rfl, hok', fun hc => hnone.mpr hc, Or.inr (Or.inr ?_)⟩
          refine ⟨rfl, b, m, rfl, ?_, ⟨_, hmem, by rw [hm]⟩, ?_⟩
          · simp only [Option.getD] at hbetter
            exact le_of_not_lt hbetter
          · intro e he
            exact hmin e (by rwa [htierItems] at he)

theorem nameLoop_none_iff (q : Point) (dict : ColorDictionary) (opts : NamingOptions) :
    ∀ (levels : List Level) (cache : TreeCache) (best : Option ColorName),
      CacheOK dict cache →
      ((nameLoop q dict opts levels cache best).1 = none ↔
        best = none ∧ ∀ l ∈ levels, SkipTier q dict opts.threshold l) := by
  intro levels
  induction levels with
  | nil =>
    intro cache best hok
    simp [nameLoop]
  | cons level rest ih =>
    intro cache best hok
    obtain ⟨cache', best', heq, hok', _, hstep⟩ :=
      nameLoop_step q dict opts level rest cache best hok
    rw [heq, ih cache' best' hok']
    rcases hstep with ⟨rfl, hskip⟩ | ⟨cand, rfl, hlevel, hatt, hbound, hthr, hbet⟩ |
        ⟨rfl, b, m, hbest, _, _, _⟩
    · simp only [List.forall_mem_cons]
      tauto
    · have hnotskip : ¬ SkipTier q dict opts.threshold level := by
        intro hsk
        obtain ⟨ns, i, hns, hi, _, _, hdist, _⟩ := hatt
        rw [hlevel] at hns
        have hmem : ((getPt ns.colors i, i) : Item) ∈ tierItems dict level := by
          simp only [tierItems, hns]
          exact mem_mkItems.mpr ⟨hi, rfl⟩
        rcases hsk with hnil | ⟨tv, htv, hall⟩
        · rw [hnil] at hmem
          simp at hmem
        · have h1 := hall _ hmem
          have h2 := hthr tv htv
          rw [hdist] at h2
          simp only at h1 h2
          rw [h1] at h2
          exact absurd h2 (by simp)
      simp only [List.forall_mem_cons]
      constructor
      · rintro ⟨h, _⟩
        exact absurd h (by simp)
      · rintro ⟨_, hsk, _⟩
        exact absurd hsk hnotskip
    · rw [hbest]
      simp only [List.forall_mem_cons]
      constructor
      · rintro ⟨h, _⟩
        exact absurd h (by simp)
      · rintro ⟨h, _⟩
        exact absurd h (by simp)

theorem nameLoop_mem (q : Point) (dict : ColorDictionary) (opts : NamingOptions) :
    ∀ (levels : List Level) (cache : TreeCache) (best : Option ColorName),
      CacheOK dict cache →
      ∀ out, (nameLoop q dict opts levels cache best).1 = some out →
        best = some out ∨ out.level ∈ levels := by
  intro levels
  induction levels with
  | nil =>
    intro cache best hok out hres
    exact Or.inl hres
  | cons level rest ih =>
    intro cache best hok out hres
    obtain ⟨cache', best', heq, hok', _, hstep⟩ :=
      nameLoop_step q dict opts level rest cache best hok
    rw [heq] at hres
    rcases ih cache' best' hok' out hres with hb | hmem
    · rcases hstep with ⟨rfl, _⟩ | ⟨cand, hcand, hlevel, _, _, _, _⟩ | ⟨rfl, _⟩
      · exact Or.inl hb
      · rw [hcand] at hb
        injection hb with hb
        right
        rw [← hb, hlevel]
        exact List.mem_cons_self _ _
      · exact Or.inl hb
    · exact Or.inr (List.mem_cons_of_mem _ hmem)

theorem nameLoop_main (q : Point) (dict : ColorDictionary) (opts : NamingOptions)
    (hth : opts.threshold = none) :
    ∀ (levels : List Level) (cache : TreeCache) (best : Option ColorName),
      CacheOK dict cache →
      ∀ out, (nameLoop q dict opts levels cache best).1 = some out →
        (best = some out ∧
          ∀ l ∈ levels, ∀ e ∈ tierItems dict l, out.distSq ≤ sqDist q e.1) ∨
        (∃ pre post, levels = pre ++ out.level :: post ∧
          (∀ b, best = some b → out.distSq < b.distSq) ∧
          (∀ l ∈ pre, ∀ e ∈ tierItems dict l, out.distSq < sqDist q e.1) ∧
          (∀ l ∈ levels, ∀ e ∈ tierItems dict l, out.distSq ≤ sqDist q e.1) ∧
          AttainedAt q dict out) := by
  intro levels
  induction levels with
  | nil =>
    intro cache best hok out hres
    left
    exact ⟨hres, by simp⟩
  | cons level rest ih =>
    intro cache best hok out hres
    obtain ⟨cache', best', heq, hok', _, hstep⟩ :=
      nameLoop_step q dict opts level rest cache best hok
    rw [heq] at hres
    rcases hstep with ⟨hb', hskip⟩ | ⟨cand, hcand, hlevel, hatt, hbound, _, hbet⟩ |
        ⟨hb', b, m, hbest, hbm, ⟨estar, hmemstar, hmstar⟩, hminb⟩
    · -- skipped tier: with no threshold this means an empty tier
      rw [hb'] at hres
      have hempty : tierItems dict level = [] := by
        rcases hskip with h | ⟨tv, htv, _⟩
        · exact h
        · rw [hth] at htv
          exact absurd htv (by simp)
      rcases ih cache' best hok' out hres with ⟨hb, hglob⟩ | ⟨pre, post, hdec, hstrict, hpre, hglob, hatt⟩
      · left
        refine ⟨hb, ?_⟩
        intro l hl
        rcases List.mem_cons.mp hl with rfl | hl'
        · intro e he
          rw [hempty] at he
          simp at he
        · exact hglob l hl'
      · right
        refine ⟨level :: pre, post, by rw [hdec]; rfl, hstrict, ?_, ?_, hatt⟩
        · intro l hl
          rcases List.mem_cons.mp hl with rfl | hl'
          · intro e he
            rw [hempty] at he
            simp at he
          · exact hpre l hl'
        · intro l hl
          rcases List.mem_cons.mp hl with rfl | hl'
          · intro e he
            rw [hempty] at he
            simp at he
          · exact hglob l hl'
    · -- a candidate from this tier replaced the running best
      rw [hcand] at hres
      rcases ih cache' (some cand) hok' out hres with ⟨hb, hglob⟩ |
          ⟨pre, post, hdec, hstrict, hpre, hglob, hatt'⟩
      · injection hb with hb
        subst hb
        right
        refine ⟨[], rest, by simp [hlevel], ?_, by simp, ?_, hatt⟩
        · intro b hb
          rcases hbet with hn | ⟨b0, hb0, hlt⟩
          · rw [hn] at hb
            exact absurd hb (by simp)
          · rw [hb0] at hb
            injection hb with hb
            rw [← hb]
            exact hlt
        · intro l hl
          rcases List.mem_cons.mp hl with rfl | hl'
          · exact hbound
          · exact hglob l hl'
      · right
        have houtcand : out.distSq < cand.distSq := hstrict cand rfl
        refine ⟨level :: pre, post, by rw [hdec]; rfl, ?_, ?_, ?_, hatt'⟩
        · intro b hb
          rcases hbet with hn | ⟨b0, hb0, hlt⟩
          · rw [hn] at hb
            exact absurd hb (by simp)
          · rw [hb0] at hb
            injection hb with hb
            rw [← hb]
            exact lt_trans houtcand hlt
        · intro l hl
          rcases List.mem_cons.mp hl with rfl | hl'
          · intro e he
            exact lt_of_lt_of_le houtcand (hbound e he)
          · exact hpre l hl'
        · intro l hl
          rcases List.mem_cons.mp hl with rfl | hl'
          · intro e he
            exact le_of_lt (lt_of_lt_of_le houtcand (hbound e he))
          · exact hglob l hl'
    · -- this tier's minimum did not beat the running best
      rw [hb'] at hres
      rcases ih cache' best hok' out hres with ⟨hb, hglob⟩ |
          ⟨pre, post, hdec, hstrict, hpre, hglob, hatt'⟩
      · left
        refine ⟨hb, ?_⟩
        intro l hl
        rcases List.mem_cons.mp hl with rfl | hl'
        · intro e he
          have hout : out = b := by
            rw [hbest] at hb
            injection hb with h
            exact h.symm
          rw [hout]
          exact le_trans hbm (hminb e he)
        · exact hglob l hl'
      · right
        have houtb : out.distSq < b.distSq := hstrict b hbest
        refine ⟨level :: pre, post, by rw [hdec]; rfl, hstrict, ?_, ?_, hatt'⟩
        · intro l hl
          rcases List.mem_cons.mp hl with rfl | hl'
          · intro e he
            exact lt_of_lt_of_le houtb (le_trans hbm (hminb e he))
          · exact hpre l hl'
        · intro l hl
          rcases List.mem_cons.mp hl with rfl | hl'
          · intro e he
            exact le_of_lt (lt_of_lt_of_le houtb (le_trans hbm (hminb e he)))
          · exact hglob l hl'

/-- `getTree` never creates a cache when called without one (inline
dictionaries). -/
theorem getTree_none_snd (dict : ColorDictionary) (level : Level) :
    (getTree dict level none).2 = none := by
  simp only [getTree, Option.none_bind]
  cases hns : tierOf dict level with
  | none => rfl
  | some ns =>
    by_cases hl : ns.names.length = 0
    · simp [hl]
    · simp [hl]

/-- The `nameColor` tier loop leaves an absent cache absent. -/
theorem nameLoop_cache_none (q : Point) (dict : ColorDictionary) (opts : NamingOptions) :
    ∀ (levels : List Level) (best : Option ColorName),
      (nameLoop q dict opts levels none best).2 = none := by
  intro levels
  induction levels with
  | nil => intro best; rfl
  | cons level rest ih =>
    intro best
    obtain ⟨cache', best', heq, _, hnone, _⟩ :=
      nameLoop_step q dict opts level rest none best trivial
    rw [heq, hnone rfl]
    exact ih best'

/-- The `nearestColors` tier loop leaves an absent cache absent. -/
theorem nearestLoop_cache_none (q : Point) (dict : ColorDictionary) (count : Nat) :
    ∀ (levels : List Level) (acc : List ColorName),
      (nearestLoop q dict count levels none acc).2 = none := by
  intro levels
  induction levels with
  | nil => intro acc; rfl
  | cons level rest ih =>
    intro acc
    simp only [nearestLoop]
    rcases hg : getTree dict level none with ⟨treeOpt, cache'⟩
    have hc' : cache' = none := by
      have h := getTree_none_snd dict level
      rw [hg] at h
      exact h
    subst hc'
    cases treeOpt with
    | none => exact ih acc
    | some tree => exact ih _

theorem getLevels_none : getLevels none = LEVELS := rfl

theorem getLevels_basic : getLevels (some .basic) = [.basic] := by decide

theorem getLevels_extended : getLevels (some .extended) = [.basic, .extended] := by decide

theorem getLevels_traditional : getLevels (some .traditional) = LEVELS := by decide

/-- Position of a tier in the fixed order. -/
def levelIdx : Level → Nat
  | .basic => 0
  | .extended => 1
  | .traditional => 2

/-- A decomposition of `LEVELS` around `x` places `x` no later than any tier
at or after it. -/
theorem levels_decomp_le {pre post : List Level} {x y : Level}
    (hdec : LEVELS = pre ++ x :: post) (hy : y ∈ x :: post) : levelIdx x ≤ levelIdx y := by
  rcases pre with _ | ⟨a, _ | ⟨b, _ | ⟨c, t⟩⟩⟩
  · rw [List.nil_append] at hdec
    injection hdec with h1 h2
    rw [← h1]
    exact Nat.zero_le _
  · simp only [List.cons_append, List.nil_append, LEVELS] at hdec
    obtain ⟨ha, hx, hpost⟩ := hdec
    rcases List.mem_cons.mp hy with rfl | hy'
    · decide
    · rcases List.mem_singleton.mp hy' with rfl
      decide
  · simp only [List.cons_append, List.nil_append, LEVELS] at hdec
    obtain ⟨ha, hb, hx, hpost⟩ := hdec
    rcases List.mem_singleton.mp hy with rfl
    decide
  · have hlen := congrArg List.length hdec
    simp [LEVELS] at hlen

/-- `nameColor` on a registered string locale, unfolded to the tier loop
over the shared cache. -/
theorem nameColorSt_inl (s : RegistryState) (q : Color) (loc : String)
    (dict : ColorDictionary) (opts : NamingOptions)
    (hreg : lookupKey s.dictionaries loc = some dict) :
    nameColorSt s q (.inl loc) opts =
      ((nameLoop q dict opts (getLevels opts.level) (some s.trees) none).1,
        { s with trees :=
          (nameLoop q dict opts (getLevels opts.level) (some s.trees) none).2.getD s.trees }) := by
  simp only [nameColorSt, resolveDict, hreg, resolveTreeCache]

/-! Support for the lookup characterization: the entries of a dictionary in
tier-then-storage order. -/

/-- The (name, coordinate) pairs of one tier, in storage order. -/
def tierNamed (dict : ColorDictionary) (level : Level) : List (String × Color) :=
  match tierOf dict level with
  | none => []
  | some ns => (List.range ns.names.length).map
      (fun i => (ns.names.getD i "", getPt ns.colors i))

/-- All (name, coordinate) pairs of a dictionary: tiers in the fixed order
basic, extended, traditional; storage order within each tier. -/
def allEntries (dict : ColorDictionary) : List (String × Color) :=
  tierNamed dict .basic ++ (tierNamed dict .extended ++ tierNamed dict .traditional)

/-- `findIdx?` of the case-folded name match, as a `find?` over positions. -/
theorem findIdx?_name (nl : String) :
    ∀ l : List String, l.findIdx? (fun n => decide (jsToLower n = nl)) =
      (List.range l.length).find? (fun i => decide (jsToLower (l.getD i "") = nl)) := by
  intro l
  induction l with
  | nil => rfl
  | cons a t ih =>
    rw [List.findIdx?_cons, List.length_cons, List.range_succ_eq_map]
    by_cases hpa : decide (jsToLower a = nl) = true
    · rw [if_pos hpa, List.find?_cons_of_pos _ (by simpa using hpa)]
    · rw [if_neg hpa, List.findIdx?_succ, List.find?_cons_of_neg _ (by simpa using hpa),
        List.find?_map]
      have hcomp : ((fun i => decide (jsToLower ((a :: t).getD i "") = nl)) ∘ Nat.succ) =
          (fun i => decide (jsToLower (t.getD i "") = nl)) := rfl
      rw [hcomp, ← ih]

/-- The tier match of `lookupLoop`, as a `find?` over the tier's entries. -/
theorem tierNamed_find? (nl : String) (dict : ColorDictionary) (level : Level)
    (ns : ColorNameSet) (hns : tierOf dict level = some ns) :
    ((tierNamed dict level).find? (fun e => decide (jsToLower e.1 = nl))).map Prod.snd =
      (ns.names.findIdx? (fun n => decide (jsToLower n = nl))).map
        (fun idx => getPt ns.colors idx) := by
  have ht : tierNamed dict level = (List.range ns.names.length).map
      (fun i => (ns.names.getD i "", getPt ns.colors i)) := by
    simp [tierNamed, hns]
  rw [ht, List.find?_map]
  have hcomp : ((fun e : String × Color => decide (jsToLower e.1 = nl)) ∘
      (fun i => (ns.names.getD i "", getPt ns.colors i))) =
      (fun i => decide (jsToLower (ns.names.getD i "") = nl)) := rfl
  rw [hcomp, ← findIdx?_name nl ns.names, Option.map_map]
  rfl

theorem map_or_snd {α β : Type} (f : α → β) (a b : Option α) :
    (a.or b).map f = (a.map f).or (b.map f) := by
  cases a <;> rfl

/-- One step of `lookupLoop`: the tier's first match, else the rest. -/
theorem lookupLoop_cons (nl : String) (dict : ColorDictionary) (level : Level)
    (rest : List Level) :
    lookupLoop nl dict (level :: rest) =
      (((tierNamed dict level).find? (fun e => decide (jsToLower e.1 = nl))).map
        Prod.snd).or (lookupLoop nl dict rest) := by
  simp only [lookupLoop]
  cases hns : tierOf dict level with
  | none =>
    have ht : tierNamed dict level = [] := by simp [tierNamed, hns]
    rw [ht]
    rfl
  | some ns =>
    rw [tierNamed_find? nl dict level ns hns]
    dsimp only
    cases hidx : ns.names.findIdx? (fun n => decide (jsToLower n = nl)) with
    | none => rfl
    | some idx => rfl

/-- `lookupLoop` over the three tiers is the first case-folded match among
all entries, in tier-then-storage order. -/
theorem lookupLoop_eq_find? (nl : String) (dict : ColorDictionary) :
    lookupLoop nl dict LEVELS =
      ((allEntries dict).find? (fun e => decide (jsToLower e.1 = nl))).map Prod.snd := by
  simp only [allEntries, List.find?_append, map_or_snd]
  show lookupLoop nl dict (Level.basic :: [Level.extended, Level.traditional]) = _
  rw [lookupLoop_cons]
  congr 1
  show lookupLoop nl dict (Level.extended :: [Level.traditional]) = _
  rw [lookupLoop_cons]
  congr 1
  show lookupLoop nl dict (Level.traditional :: []) = _
  rw [lookupLoop_cons]
  have h0 : lookupLoop nl dict [] = none := rfl
  rw [h0, Option.or_none]

/-- First-match characterization of `find?` by positions. -/
theorem find?_first_char {α : Type} (p : α → Bool) (l : List α) (c : α) :
    l.find? p = some c ↔
      ∃ i, ∃ hi : i < l.length, l.get ⟨i, hi⟩ = c ∧ p c = true ∧
        ∀ j, ∀ hj : j < l.length, j < i → p (l.get ⟨j, hj⟩) = false := by
  rw [List.find?_eq_some_iff_getElem]
  constructor
  · rintro ⟨hp, i, hi, hl, hprev⟩
    refine ⟨i, hi, hl, hp, ?_⟩
    intro j hj hji
    have h := hprev j hji
    simpa using h
  · rintro ⟨i, hi, hl, hp, hprev⟩
    refine ⟨hp, i, hi, hl, ?_⟩
    intro j hji
    have hjlen : j < l.length := lt_trans hji hi
    have h := hprev j hjlen hji
    simpa using h

/-- Membership in a tier's entry list, unpacked. -/
theorem mem_tierNamed {dict : ColorDictionary} {level : Level} {e : String × Color}
    (he : e ∈ tierNamed dict level) : ∃ ns i, tierOf dict level = some ns ∧
      i < ns.names.length ∧ e = (ns.names.getD i "", getPt ns.colors i) := by
  cases hns : tierOf dict level with
  | none =>
    simp only [tierNamed, hns] at he
    simp at he
  | some ns =>
    simp only [tierNamed, hns] at he
    obtain ⟨i, hi, rfl⟩ := List.mem_map.mp he
    exact ⟨ns, i, rfl, List.mem_range.mp hi, rfl⟩

/-- A successful reverse lookup returns a coordinate stored in some tier. -/
theorem lookupColorSt_mem (s : RegistryState) (name : String) (locale : LocaleRef)
    (dict : ColorDictionary) (c : Color) (hreg : resolveDict s locale = some dict)
    (hlook : lookupColorSt s name locale = some c) :
    ∃ l ∈ LEVELS, ∃ i, ((c, i) : Item) ∈ tierItems dict l := by
  simp only [lookupColorSt, hreg] at hlook
  rw [lookupLoop_eq_find?] at hlook
  obtain ⟨e, hfind, he2⟩ := Option.map_eq_some'.mp hlook
  have hmem : e ∈ allEntries dict := List.mem_of_find?_eq_some hfind
  have hcases : ∃ l ∈ LEVELS, e ∈ tierNamed dict l := by
    simp only [allEntries] at hmem
    rcases List.mem_append.mp hmem with h | h
    · exact ⟨.basic, by simp [LEVELS], h⟩
    · rcases List.mem_append.mp h with h' | h'
      · exact ⟨.extended, by simp [LEVELS], h'⟩
      · exact ⟨.traditional, by simp [LEVELS], h'⟩
  obtain ⟨l, hlmem, hel⟩ := hcases
  obtain ⟨ns, i, hns, hi, rfl⟩ := mem_tierNamed hel
  refine ⟨l, hlmem, i, ?_⟩
  simp only [tierItems, hns]
  refine mem_mkItems.mpr ⟨hi, ?_⟩
  simp only at he2 ⊢
  rw [← he2]

theorem treeKey_ne (loc : String) {lv lv' : Level} (h : lv ≠ lv') :
    treeKey loc lv ≠ treeKey loc lv' :=
  fun hc => h (treeKey_inj hc)

/-- C3: registering a dictionary for a locale that already has a stored
dictionary leaves every tier present in the stored dictionary unchanged,
copies in only the tiers the stored dictionary lacks, and removes all three
cached (locale, tier) tree entries for that locale. -/
theorem C3_merge_frame (s : RegistryState) (incoming existing : ColorDictionary)
    (hreg : lookupKey s.dictionaries incoming.locale = some existing) :
    lookupKey (useLocale s incoming).dictionaries incoming.locale =
      some (mergeDict existing incoming) ∧
    (∀ lv : Level, ∀ ns, tierOf existing lv = some ns →
      tierOf (mergeDict existing incoming) lv = some ns) ∧
    (∀ lv : Level, tierOf existing lv = none →
      tierOf (mergeDict existing incoming) lv = tierOf incoming lv) ∧
    (∀ lv : Level, lookupKey (useLocale s incoming).trees (treeKey incoming.locale lv) =
      none) := by
  refine ⟨?_, ?_, ?_, ?_⟩
  · simp only [useLocale, hreg]
    exact lookupKey_setKey_self _ _ _
  · intro lv ns hns
    cases lv <;> simp_all [tierOf, mergeDict, mergeTier]
  · intro lv hns
    cases lv <;> simp_all [tierOf, mergeDict, mergeTier]
  · intro lv
    simp only [useLocale, hreg]
    cases lv with
    | basic =>
      rw [lookupKey_delKey_ne _ _ _ (treeKey_ne _ (by decide)),
        lookupKey_delKey_ne _ _ _ (treeKey_ne _ (by decide))]
      exact lookupKey_delKey_self _ _
    | extended =>
      rw [lookupKey_delKey_ne _ _ _ (treeKey_ne _ (by decide))]
      exact lookupKey_delKey_self _ _
    | traditional =>
      exact lookupKey_delKey_self _ _

/-- Concrete registry for the C3 witness: one stored dictionary with a
basic tier, and one cached tree for it. -/
def c3old : ColorDictionary := ColorDictionary.mk "x" "s1" (some ⟨["a"], [0, 0, 0]⟩) none none

def c3inc : ColorDictionary :=
  ColorDictionary.mk "x" "s2" (some ⟨["z"], [1, 1, 1]⟩) (some ⟨["e"], [2, 2, 2]⟩) none

def c3s : RegistryState :=
  ⟨[("x", c3old)], [(treeKey "x" .basic, KDNode.leaf)]⟩

/-- Witness for C3 at a concrete registry. -/
theorem C3_merge_frame_witness :
    lookupKey c3s.dictionaries c3inc.locale = some c3old ∧
    (lookupKey (useLocale c3s c3inc).dictionaries c3inc.locale =
        some (mergeDict c3old c3inc) ∧
      (∀ lv : Level, ∀ ns, tierOf c3old lv = some ns →
        tierOf (mergeDict c3old c3inc) lv = some ns) ∧
      (∀ lv : Level, tierOf c3old lv = none →
        tierOf (mergeDict c3old c3inc) lv = tierOf c3inc lv) ∧
      (∀ lv : Level, lookupKey (useLocale c3s c3inc).trees (treeKey c3inc.locale lv) =
        none)) :=
  ⟨rfl, C3_merge_frame c3s c3inc c3old rfl⟩

/-- With k at least the point count, `nearestN` holds exactly the stored
points: its entries are, as a multiset, every stored index paired with its
squared distance to the query.  No distinctness is needed: the selection
invariant bounds the heap by the point multiset, and the cardinalities
agree. -/
theorem nearestN_all (points : List ℚ) (count k : Nat) (q : Point) (hk : count ≤ k) :
    (↑(KDTree.nearestN (kdtreeNew points count) q k) : Multiset HEntry) =
      Multiset.map (toEntry q) ↑(mkItems points count) := by
  obtain ⟨_, hlen, hsub, _⟩ := searchN_inv q k points count
  have h1 : (↑(KDTree.nearestN (kdtreeNew points count) q k) : Multiset HEntry) =
      ↑(searchN q k (kdtreeNew points count) []) := by
    apply Multiset.coe_eq_coe.mpr
    simp only [KDTree.nearestN]
    exact List.perm_insertionSort entryLeP _
  rw [h1]
  have hc1 : Multiset.card
      (↑(searchN q k (kdtreeNew points count) []) : Multiset HEntry) = min k count := by
    rw [Multiset.coe_card, hlen, Multiset.coe_card, length_mkItems]
  have hc2 : Multiset.card
      (Multiset.map (toEntry q) (↑(mkItems points count) : Multiset Item)) = count := by
    rw [Multiset.card_map, Multiset.coe_card, length_mkItems]
  apply Multiset.eq_of_le_of_card_le hsub
  rw [hc1, hc2]
  omega

/-- C6: for every point set, query and k ≥ 1, `nearestN` returns a list
sorted non-decreasing by distance whose length is min(k, n); when k is at
least the point count, the returned entries are exactly all n stored points
(every stored index with its distance), sorted by distance. -/
theorem C6_nearestN_shape (points : List ℚ) (count k : Nat) (q : Point)
    (hk : 1 ≤ k) :
    (KDTree.nearestN (kdtreeNew points count) q k).length = min k count ∧
    List.Pairwise (fun a b : HEntry => a.2 ≤ b.2)
      (KDTree.nearestN (kdtreeNew points count) q k) ∧
    (count ≤ k →
      (↑(KDTree.nearestN (kdtreeNew points count) q k) : Multiset HEntry) =
        Multiset.map (toEntry q) ↑(mkItems points count)) :=
  ⟨nearestN_length points count k q, nearestN_sorted points count k q,
    fun hck => nearestN_all points count k q hck⟩

/-- Witness for C6 with k larger than the point count. -/
theorem C6_nearestN_shape_witness :
    1 ≤ 2 ∧
    (KDTree.nearestN (kdtreeNew [0, 0, 0] 1) (0, 0, 0) 2).length = min 2 1 ∧
    List.Pairwise (fun a b : HEntry => a.2 ≤ b.2)
      (KDTree.nearestN (kdtreeNew [0, 0, 0] 1) (0, 0, 0) 2) ∧
    (↑(KDTree.nearestN (kdtreeNew [0, 0, 0] 1) (0, 0, 0) 2) : Multiset HEntry) =
      Multiset.map (toEntry (0, 0, 0)) ↑(mkItems [0, 0, 0] 1) :=
  ⟨by decide, (C6_nearestN_shape [0, 0, 0] 1 2 (0, 0, 0) (by decide)).1,
    (C6_nearestN_shape [0, 0, 0] 1 2 (0, 0, 0) (by decide)).2.1,
    (C6_nearestN_shape [0, 0, 0] 1 2 (0, 0, 0) (by decide)).2.2 (by decide)⟩

/-- C9: a query against an inline dictionary never writes the shared tree
cache and leaves the whole registry state (dictionaries and cache)
unchanged; `resolveTreeCache` hands a cache only to string locales. -/
theorem C9_inline_no_cache (s : RegistryState) (c : Color) (d : ColorDictionary)
    (opts : NamingOptions) (count : Nat) (nm : String) (fr : LocaleRef) :
    (nameColorSt s c (.inr d) opts).2 = s ∧
    (nearestColorsSt s c (.inr d) count).2 = s ∧
    (translateSt s nm fr (.inr d)).2 = s ∧
    resolveTreeCache s (.inr d) = none ∧
    (∀ str : String, resolveTreeCache s (.inl str) = some s.trees) := by
  have hgen : ∀ (c' : Color) (opts' : NamingOptions),
      (nameColorSt s c' (.inr d) opts').2 = s := by
    intro c' opts'
    simp only [nameColorSt, resolveDict, resolveTreeCache]
    rw [nameLoop_cache_none]
    rfl
  refine ⟨hgen c opts, ?_, ?_, rfl, fun _ => rfl⟩
  · simp only [nearestColorsSt, resolveDict, resolveTreeCache]
    rw [nearestLoop_cache_none]
    rfl
  · simp only [translateSt]
    cases hl : lookupColorSt s nm fr with
    | none => rfl
    | some sc =>
      rcases hn : nameColorSt s sc (.inr d) ⟨none, none⟩ with ⟨r, s'⟩
      have hs' : s' = s := by
        have h := hgen sc ⟨none, none⟩
        rw [hn] at h
        exact h
      dsimp only
      rw [hn]
      cases r with
      | none => exact hs'
      | some m => exact hs'

/-- C2: with a threshold t, `nameColor` returns no match exactly when every
entry of every searched tier lies farther than t (the source compares
`sqrt distSq > t`, modelled by `sqrtGtB`); in particular any t exceeded by a
lower bound of all entry distances forces no match. -/
theorem C2_threshold_policy (s : RegistryState) (q : Color) (loc : String)
    (dict : ColorDictionary) (t : ℚ)
    (hreg : lookupKey s.dictionaries loc = some dict)
    (hok : CacheOK dict (some s.trees))
    (hne : ∃ l ∈ LEVELS, tierItems dict l ≠ []) :
    ((nameColorSt s q (.inl loc) ⟨none, some t⟩).1 = none ↔
      ∀ l ∈ LEVELS, ∀ e ∈ tierItems dict l, sqrtGtB (sqDist q e.1) t = true) ∧
    (∀ m, (∀ l ∈ LEVELS, ∀ e ∈ tierItems dict l, m ≤ sqDist q e.1) →
      sqrtGtB m t = true →
      (nameColorSt s q (.inl loc) ⟨none, some t⟩).1 = none) := by
  have hmain : (nameColorSt s q (.inl loc) ⟨none, some t⟩).1 =
      (nameLoop q dict ⟨none, some t⟩ LEVELS (some s.trees) none).1 := by
    rw [nameColorSt_inl s q loc dict _ hreg]
    rfl
  constructor
  · rw [hmain, nameLoop_none_iff q dict ⟨none, some t⟩ LEVELS (some s.trees) none hok]
    constructor
    · rintro ⟨_, hall⟩ l hl e he
      rcases hall l hl with hnil | ⟨tv, htv, hexc⟩
      · rw [hnil] at he
        simp at he
      · have htv2 : some t = some tv := htv
        injection htv2 with htv3
        rw [← htv3] at hexc
        exact hexc e he
    · intro hall
      exact ⟨rfl, fun l hl => Or.inr ⟨t, rfl, hall l hl⟩⟩
  · intro m hmin hexc
    rw [hmain, nameLoop_none_iff q dict ⟨none, some t⟩ LEVELS (some s.trees) none hok]
    exact ⟨rfl, fun l hl => Or.inr ⟨t, rfl,
      fun e he => sqrtGtB_mono (hmin l hl e he) hexc⟩⟩

/-- Concrete registry shared by several witnesses: one locale with a single
basic-tier name at the origin, and an empty tree cache. -/
def wdict : ColorDictionary :=
  ColorDictionary.mk "y" "src" (some ⟨["a"], [0, 0, 0]⟩) none none

def wst : RegistryState := ⟨[("y", wdict)], []⟩

theorem wst_cacheOK : CacheOK wdict (some wst.trees) :=
  fun _ _ h => Option.noConfusion h

/-- Witness for C2 at a concrete registry and threshold. -/
theorem C2_threshold_policy_witness :
    lookupKey wst.dictionaries "y" = some wdict ∧
    (∃ l ∈ LEVELS, tierItems wdict l ≠ []) ∧
    ((((nameColorSt wst (1, 0, 0) (.inl "y") ⟨none, some 2⟩).1 = none ↔
      ∀ l ∈ LEVELS, ∀ e ∈ tierItems wdict l, sqrtGtB (sqDist (1, 0, 0) e.1) 2 = true) ∧
    (∀ m, (∀ l ∈ LEVELS, ∀ e ∈ tierItems wdict l, m ≤ sqDist (1, 0, 0) e.1) →
      sqrtGtB m 2 = true →
      (nameColorSt wst (1, 0, 0) (.inl "y") ⟨none, some 2⟩).1 = none))) :=
  ⟨rfl, ⟨.basic, List.mem_cons_self _ _, by decide⟩,
    C2_threshold_policy wst (1, 0, 0) "y" wdict 2 rfl wst_cacheOK
      ⟨.basic, List.mem_cons_self _ _, by decide⟩⟩

/-- C4: `nameColor` with level basic only returns basic-tier results; with
level extended only basic or extended; with no level it searches all tiers
and, when any tier is non-empty, returns a result attained at an entry and
no farther than every entry of every tier. -/
theorem C4_tier_escalation (s : RegistryState) (q : Color) (loc : String)
    (dict : ColorDictionary)
    (hreg : lookupKey s.dictionaries loc = some dict)
    (hok : CacheOK dict (some s.trees)) :
    (∀ th out, (nameColorSt s q (.inl loc) ⟨some .basic, th⟩).1 = some out →
      out.level = .basic) ∧
    (∀ th out, (nameColorSt s q (.inl loc) ⟨some .extended, th⟩).1 = some out →
      (out.level = .basic ∨ out.level = .extended)) ∧
    ((∃ l ∈ LEVELS, tierItems dict l ≠ []) →
      ∃ out, (nameColorSt s q (.inl loc) ⟨none, none⟩).1 = some out ∧
        AttainedAt q dict out ∧
        (∀ l ∈ LEVELS, ∀ e ∈ tierItems dict l, out.distSq ≤ sqDist q e.1)) := by
  refine ⟨?_, ?_, ?_⟩
  · intro th out hres
    rw [nameColorSt_inl s q loc dict _ hreg] at hres
    dsimp only at hres
    rw [getLevels_basic] at hres
    rcases nameLoop_mem q dict _ _ (some s.trees) none hok out hres with hb | hmem
    · exact absurd hb (by simp)
    · simpa using hmem
  · intro th out hres
    rw [nameColorSt_inl s q loc dict _ hreg] at hres
    dsimp only at hres
    rw [getLevels_extended] at hres
    rcases nameLoop_mem q dict _ _ (some s.trees) none hok out hres with hb | hmem
    · exact absurd hb (by simp)
    · simpa using hmem
  · rintro ⟨l0, hl0, hne0⟩
    cases hres : (nameColorSt s q (.inl loc) ⟨none, none⟩).1 with
    | none =>
      exfalso
      rw [nameColorSt_inl s q loc dict _ hreg] at hres
      dsimp only at hres
      rw [getLevels_none] at hres
      have hskips := (nameLoop_none_iff q dict ⟨none, none⟩ LEVELS
        (some s.trees) none hok).mp hres
      rcases hskips.2 l0 hl0 with hnil | ⟨tv, htv, _⟩
      · exact hne0 hnil
      · have htv2 : (none : Option ℚ) = some tv := htv
        exact Option.noConfusion htv2
    | some out =>
      rw [nameColorSt_inl s q loc dict _ hreg] at hres
      dsimp only at hres
      rw [getLevels_none] at hres
      rcases nameLoop_main q dict ⟨none, none⟩ rfl LEVELS (some s.trees) none hok out
          hres with ⟨hb, _⟩ | ⟨_, _, _, _, _, hglob, hatt⟩
      · exact absurd hb (by simp)
      · exact ⟨out, rfl, hatt, hglob⟩

/-- Witness for C4 at a concrete registry. -/
theorem C4_tier_escalation_witness :
    lookupKey wst.dictionaries "y" = some wdict ∧
    ((∀ th out, (nameColorSt wst (1, 0, 0) (.inl "y") ⟨some .basic, th⟩).1 = some out →
      out.level = .basic) ∧
    (∀ th out, (nameColorSt wst (1, 0, 0) (.inl "y") ⟨some .extended, th⟩).1 = some out →
      (out.level = .basic ∨ out.level = .extended)) ∧
    ((∃ l ∈ LEVELS, tierItems wdict l ≠ []) →
      ∃ out, (nameColorSt wst (1, 0, 0) (.inl "y") ⟨none, none⟩).1 = some out ∧
        AttainedAt (1, 0, 0) wdict out ∧
        (∀ l ∈ LEVELS, ∀ e ∈ tierItems wdict l, out.distSq ≤ sqDist (1, 0, 0) e.1))) :=
  ⟨rfl, C4_tier_escalation wst (1, 0, 0) "y" wdict rfl wst_cacheOK⟩

/-- C10: when the minimal distance over the searched tiers is attained in
more than one tier, `nameColor` with no options returns the earliest such
tier in the fixed order: a later tier replaces the running best only on a
strictly smaller distance. -/
theorem C10_cross_tier_tie (s : RegistryState) (q : Color) (loc : String)
    (dict : ColorDictionary) (out : ColorName)
    (hreg : lookupKey s.dictionaries loc = some dict)
    (hok : CacheOK dict (some s.trees))
    (hres : (nameColorSt s q (.inl loc) ⟨none, none⟩).1 = some out) :
    (∀ l ∈ LEVELS, ∀ e ∈ tierItems dict l, out.distSq ≤ sqDist q e.1) ∧
    (∃ e ∈ tierItems dict out.level, out.distSq = sqDist q e.1) ∧
    (∀ l ∈ LEVELS, (∃ e ∈ tierItems dict l, sqDist q e.1 = out.distSq) →
      levelIdx out.level ≤ levelIdx l) := by
  rw [nameColorSt_inl s q loc dict _ hreg] at hres
  dsimp only at hres
  rw [getLevels_none] at hres
  rcases nameLoop_main q dict ⟨none, none⟩ rfl LEVELS (some s.trees) none hok out
      hres with ⟨hb, _⟩ | ⟨pre, post, hdec, _, hpre, hglob, hatt⟩
  · exact absurd hb (by simp)
  · have hattmem : ∃ e ∈ tierItems dict out.level, out.distSq = sqDist q e.1 := by
      obtain ⟨ns, i, hns, hi, _, _, hdist, _⟩ := hatt
      refine ⟨(getPt ns.colors i, i), ?_, hdist⟩
      simp only [tierItems, hns]
      exact mem_mkItems.mpr ⟨hi, rfl⟩
    refine ⟨hglob, hattmem, ?_⟩
    rintro l hl ⟨e, he, hdist⟩
    rcases Classical.em (l ∈ pre) with hlpre | hlpre
    · exfalso
      have hstrict := hpre l hlpre e he
      rw [hdist] at hstrict
      exact lt_irrefl _ hstrict
    · have hl2 : l ∈ out.level :: post := by
        have hl3 : l ∈ pre ++ out.level :: post := by
          rw [← hdec]
          exact hl
        rcases List.mem_append.mp hl3 with h | h
        · exact absurd h hlpre
        · exact h
      exact levels_decomp_le hdec hl2

/-- C8: lookup is a case-insensitive exact match scanning tiers in the
fixed order basic, extended, traditional and names in storage order,
returning the coordinate of the first match; with duplicate names the first
occurrence in this tier-then-storage order wins. -/
theorem C8_lookup_first_match (s : RegistryState) (name : String) (locale : LocaleRef)
    (dict : ColorDictionary) (hreg : resolveDict s locale = some dict) :
    lookupColorSt s name locale =
      ((allEntries dict).find? (fun e => decide (jsToLower e.1 = jsToLower name))).map
        Prod.snd ∧
    (∀ c, lookupColorSt s name locale = some c ↔
      ∃ i, ∃ hi : i < (allEntries dict).length,
        jsToLower ((allEntries dict).get ⟨i, hi⟩).1 = jsToLower name ∧
        c = ((allEntries dict).get ⟨i, hi⟩).2 ∧
        ∀ j, ∀ hj : j < (allEntries dict).length, j < i →
          jsToLower ((allEntries dict).get ⟨j, hj⟩).1 ≠ jsToLower name) := by
  have hfind : lookupColorSt s name locale =
      ((allEntries dict).find? (fun e => decide (jsToLower e.1 = jsToLower name))).map
        Prod.snd := by
    simp only [lookupColorSt, hreg]
    exact lookupLoop_eq_find? (jsToLower name) dict
  refine ⟨hfind, ?_⟩
  intro c
  rw [hfind, Option.map_eq_some']
  constructor
  · rintro ⟨e, he, rfl⟩
    rw [find?_first_char] at he
    obtain ⟨i, hi, hl, hp, hprev⟩ := he
    refine ⟨i, hi, ?_, ?_, ?_⟩
    · rw [hl]
      exact of_decide_eq_true hp
    · rw [hl]
    · intro j hj hji
      exact of_decide_eq_false (hprev j hj hji)
  · rintro ⟨i, hi, hname, hc, hprev⟩
    refine ⟨(allEntries dict).get ⟨i, hi⟩, ?_, hc.symm⟩
    rw [find?_first_char]
    exact ⟨i, hi, rfl, decide_eq_true hname,
      fun j hj hji => decide_eq_false (hprev j hj hji)⟩

/-- Witness for C8 at a concrete registry and name. -/
theorem C8_lookup_first_match_witness :
    resolveDict wst (.inl "y") = some wdict ∧
    (lookupColorSt wst "A" (.inl "y") =
      ((allEntries wdict).find? (fun e => decide (jsToLower e.1 = jsToLower "A"))).map
        Prod.snd ∧
    (∀ c, lookupColorSt wst "A" (.inl "y") = some c ↔
      ∃ i, ∃ hi : i < (allEntries wdict).length,
        jsToLower ((allEntries wdict).get ⟨i, hi⟩).1 = jsToLower "A" ∧
        c = ((allEntries wdict).get ⟨i, hi⟩).2 ∧
        ∀ j, ∀ hj : j < (allEntries wdict).length, j < i →
          jsToLower ((allEntries wdict).get ⟨j, hj⟩).1 ≠ jsToLower "A")) :=
  ⟨rfl, C8_lookup_first_match wst "A" (.inl "y") wdict rfl⟩

/-- A registered dictionary with no tiers at all, and a registry holding it
next to `wdict`, for the C7 witness. -/
def edict : ColorDictionary := ColorDictionary.mk "e" "se" none none none

def c7s : RegistryState := ⟨[("y", wdict), ("e", edict)], []⟩

/-- C7: routine failures are explicit absent values: `nearest` on an empty
tree returns the sentinel state (index −1, infinite distance); an unknown
locale yields null/empty results from naming, nearest-colors and lookup; a
failed reverse lookup makes translate return null; a registered locale
whose searched tiers all exceed the threshold, or whose tiers are all
absent or empty, makes `nameColor` return null. -/
theorem C7_failures_explicit (s : RegistryState) (q : Color)
    (loc loc2 loc3 : String) (count : Nat) (nm : String) (fr tgt : LocaleRef)
    (dict dict2 : ColorDictionary) (t : ℚ)
    (hmiss : lookupKey s.dictionaries loc = none)
    (hlook : lookupColorSt s nm fr = none)
    (hreg2 : lookupKey s.dictionaries loc2 = some dict)
    (hok2 : CacheOK dict (some s.trees))
    (hexc : ∀ l ∈ LEVELS, ∀ e ∈ tierItems dict l, sqrtGtB (sqDist q e.1) t = true)
    (hreg3 : lookupKey s.dictionaries loc3 = some dict2)
    (hok3 : CacheOK dict2 (some s.trees))
    (hempty : ∀ l ∈ LEVELS, tierItems dict2 l = []) :
    KDTree.nearest (kdtreeNew [] 0) q = NState.mk none (-1) ∧
    nameColorSt s q (.inl loc) ⟨none, some t⟩ = (none, s) ∧
    nearestColorsSt s q (.inl loc) count = ([], s) ∧
    lookupColorSt s nm (.inl loc) = none ∧
    translateSt s nm fr tgt = (none, s) ∧
    (nameColorSt s q (.inl loc2) ⟨none, some t⟩).1 = none ∧
    (nameColorSt s q (.inl loc3) ⟨none, none⟩).1 = none := by
  refine ⟨rfl, ?_, ?_, ?_, ?_, ?_, ?_⟩
  · simp only [nameColorSt, resolveDict, hmiss]
  · simp only [nearestColorsSt, resolveDict, hmiss]
  · simp only [lookupColorSt, resolveDict, hmiss]
  · simp only [translateSt, hlook]
  · have hm : (nameColorSt s q (.inl loc2) ⟨none, some t⟩).1 =
        (nameLoop q dict ⟨none, some t⟩ LEVELS (some s.trees) none).1 := by
      rw [nameColorSt_inl s q loc2 dict _ hreg2]
      rfl
    rw [hm, nameLoop_none_iff q dict ⟨none, some t⟩ LEVELS (some s.trees) none hok2]
    exact ⟨rfl, fun l hl => Or.inr ⟨t, rfl, hexc l hl⟩⟩
  · have hm : (nameColorSt s q (.inl loc3) ⟨none, none⟩).1 =
        (nameLoop q dict2 ⟨none, none⟩ LEVELS (some s.trees) none).1 := by
      rw [nameColorSt_inl s q loc3 dict2 _ hreg3]
      rfl
    rw [hm, nameLoop_none_iff q dict2 ⟨none, none⟩ LEVELS (some s.trees) none hok3]
    exact ⟨rfl, fun l hl => Or.inl (hempty l hl)⟩

/-- A negative threshold is exceeded by every distance. -/
theorem sqrtGtB_neg_one (d : ℚ) : sqrtGtB d (-1) = true := by
  simp only [sqrtGtB, Bool.or_eq_true, decide_eq_true_eq]
  left
  norm_num

/-- Witness for C7 at a concrete registry: unknown locale "z", unknown name
"zzz", a negative threshold over "y", and the tierless dictionary "e". -/
theorem C7_failures_explicit_witness :
    (lookupKey c7s.dictionaries "z" = none ∧
      lookupColorSt c7s "zzz" (.inl "y") = none ∧
      lookupKey c7s.dictionaries "y" = some wdict ∧
      (∀ l ∈ LEVELS, ∀ e ∈ tierItems wdict l,
        sqrtGtB (sqDist (1, 0, 0) e.1) (-1) = true) ∧
      lookupKey c7s.dictionaries "e" = some edict ∧
      (∀ l ∈ LEVELS, tierItems edict l = [])) ∧
    (KDTree.nearest (kdtreeNew [] 0) (1, 0, 0) = NState.mk none (-1) ∧
    nameColorSt c7s (1, 0, 0) (.inl "z") ⟨none, some (-1)⟩ = (none, c7s) ∧
    nearestColorsSt c7s (1, 0, 0) (.inl "z") 3 = ([], c7s) ∧
    lookupColorSt c7s "zzz" (.inl "z") = none ∧
    translateSt c7s "zzz" (.inl "y") (.inl "y") = (none, c7s) ∧
    (nameColorSt c7s (1, 0, 0) (.inl "y") ⟨none, some (-1)⟩).1 = none ∧
    (nameColorSt c7s (1, 0, 0) (.inl "e") ⟨none, none⟩).1 = none) :=
  ⟨⟨rfl, rfl, rfl, fun _ _ _ _ => sqrtGtB_neg_one _, rfl,
      fun l _ => by cases l <;> rfl⟩,
    C7_failures_explicit c7s (1, 0, 0) "z" "y" "e" 3 "zzz" (.inl "y") (.inl "y")
      wdict edict (-1) rfl rfl rfl (fun _ _ h => Option.noConfusion h)
      (fun _ _ _ _ => sqrtGtB_neg_one _)
      rfl (fun _ _ h => Option.noConfusion h) (fun l _ => by cases l <;> rfl)⟩

/-- A registry for the C10 witness: the same coordinate stored in both the
basic and the extended tier under different names. -/
def c10dict : ColorDictionary :=
  ColorDictionary.mk "y2" "src2" (some ⟨["a"], [0, 0, 0]⟩) (some ⟨["b"], [0, 0, 0]⟩) none

def c10s : RegistryState := ⟨[("y2", c10dict)], []⟩

def c10out : ColorName := ⟨"a", (0, 0, 0), 0, "src2", .basic⟩

/-- Witness for C10: a basic/extended tie at the query point resolves to
the basic tier. -/
theorem C10_cross_tier_tie_witness :
    (lookupKey c10s.dictionaries "y2" = some c10dict ∧
      (nameColorSt c10s (0, 0, 0) (.inl "y2") ⟨none, none⟩).1 = some c10out) ∧
    ((∀ l ∈ LEVELS, ∀ e ∈ tierItems c10dict l,
        c10out.distSq ≤ sqDist (0, 0, 0) e.1) ∧
      (∃ e ∈ tierItems c10dict c10out.level, c10out.distSq = sqDist (0, 0, 0) e.1) ∧
      (∀ l ∈ LEVELS, (∃ e ∈ tierItems c10dict l, sqDist (0, 0, 0) e.1 = c10out.distSq) →
        levelIdx c10out.level ≤ levelIdx l)) := by
  have hres : (nameColorSt c10s (0, 0, 0) (.inl "y2") ⟨none, none⟩).1 = some c10out := by
    have hk1 : treeKey "y2" Level.basic = "y2:basic" := rfl
    have hk2 : treeKey "y2" Level.extended = "y2:extended" := rfl
    have hk3 : treeKey "y2" Level.traditional = "y2:traditional" := rfl
    have hne1 : ("y2:basic" : String) ≠ "y2:extended" := by decide
    have hne2 : ("y2:basic" : String) ≠ "y2:traditional" := by decide
    have hne3 : ("y2:extended" : String) ≠ "y2:traditional" := by decide
    simp [nameColorSt, resolveDict, resolveTreeCache, lookupKey, nameLoop, getLevels,
      LEVELS, getTree, hk1, hk2, hk3, hne1, hne2, hne3, tierOf, makeColorFromSet,
      sqrtGtB, setKey, Option.bind, c10s, c10dict, c10out, KDTree.nearest, kdtreeNew,
      mkItems, getPt, build, searchNearest, distLtB, List.insertionSort,
      List.orderedInsert, axLeP, coordAt, sqDist, List.range_succ]
  exact ⟨⟨rfl, hres⟩, C10_cross_tier_tie c10s (0, 0, 0) "y2" c10dict c10out rfl
    (fun _ _ h => Option.noConfusion h) hres⟩

/-- C1 counterexample: two coincident points.  The k-d tree places the
second copy at the root and visits it first, so `nearest` reports index 1
and `nearestN(q, 1)` selects {1}, while the brute-force scan visits the
first copy first and reports index 0 in both cases. -/
theorem C1_counterexample :
    KDTree.nearest (kdtreeNew [0, 0, 0, 0, 0, 0] 2) (0, 0, 0) ≠
      bruteNearest (0, 0, 0) (mkItems [0, 0, 0, 0, 0, 0] 2) ∧
    (KDTree.nearestN (kdtreeNew [0, 0, 0, 0, 0, 0] 2) (0, 0, 0) 1).map Prod.fst ≠
      (bruteTopK (0, 0, 0) (mkItems [0, 0, 0, 0, 0, 0] 2) 1).map Prod.fst := by
  have h1 : KDTree.nearest (kdtreeNew [0, 0, 0, 0, 0, 0] 2) (0, 0, 0) =
      NState.mk (some 0) 1 := by
    simp [KDTree.nearest, kdtreeNew, mkItems, getPt, build, searchNearest, distLtB,
      List.insertionSort, List.orderedInsert, axLeP, coordAt, sqDist, List.range_succ]
  have h2 : bruteNearest (0, 0, 0) (mkItems [0, 0, 0, 0, 0, 0] 2) =
      NState.mk (some 0) 0 := by
    simp [bruteNearest, bruteStep, distLtB, mkItems, getPt, sqDist, List.range_succ]
  have h3 : KDTree.nearestN (kdtreeNew [0, 0, 0, 0, 0, 0] 2) (0, 0, 0) 1 = [(1, 0)] := by
    simp [KDTree.nearestN, searchN, stepN, heapMax, heapUp, heapUpF, heapDown,
      heapDownF, hget, hswap, parentIdx, pickLargest, pickChild1, toEntry, entryLeP,
      kdtreeNew, mkItems, getPt, build, List.insertionSort, List.orderedInsert, axLeP,
      coordAt, sqDist, List.range_succ]
  have h4 : bruteTopK (0, 0, 0) (mkItems [0, 0, 0, 0, 0, 0] 2) 1 = [(0, 0)] := by
    simp [bruteTopK, toEntry, mkItems, getPt, sqDist, List.insertionSort,
      List.orderedInsert, entryLeP, List.range_succ]
  rw [h1, h2, h3, h4]
  constructor
  · intro h
    exact absurd (congrArg NState.bestIndex h) (by decide)
  · intro h
    simp at h

/-- C1 (amended): when the query's distances to the stored points are
pairwise distinct, `nearest` agrees with the brute-force linear minimum and
`nearestN` returns exactly the brute-force k-smallest selection.  On tied
distances the two sides may pick different representatives (see the
counterexample): both keep an incumbent unless strictly beaten, but visit
the points in different orders. -/
theorem C1_kdtree_matches_brute (points : List ℚ) (count k : Nat) (q : Point)
    (hdist : DistinctDists q (mkItems points count)) :
    KDTree.nearest (kdtreeNew points count) q = bruteNearest q (mkItems points count) ∧
    KDTree.nearestN (kdtreeNew points count) q k =
      bruteTopK q (mkItems points count) k :=
  ⟨nearest_eq_brute q points count hdist, nearestN_eq_bruteTopK points count k q hdist⟩

/-- Witness for the amended C1 on a one-point set. -/
theorem C1_kdtree_matches_brute_witness :
    DistinctDists (0, 0, 0) (mkItems [1, 0, 0] 1) ∧
    (KDTree.nearest (kdtreeNew [1, 0, 0] 1) (0, 0, 0) =
      bruteNearest (0, 0, 0) (mkItems [1, 0, 0] 1) ∧
    KDTree.nearestN (kdtreeNew [1, 0, 0] 1) (0, 0, 0) 1 =
      bruteTopK (0, 0, 0) (mkItems [1, 0, 0] 1) 1) := by
  have hd : DistinctDists (0, 0, 0) (mkItems [1, 0, 0] 1) := by
    intro e1 he1 e2 he2 _
    simp only [mkItems, List.range_succ, List.range_zero, List.nil_append,
      List.map_cons, List.map_nil, List.mem_singleton] at he1 he2
    rw [he1, he2]
  exact ⟨hd, C1_kdtree_matches_brute [1, 0, 0] 1 1 (0, 0, 0) hd⟩

theorem sqDist_self (a : Point) : sqDist a a = 0 := by
  simp [sqDist]

/-- C5 (amended): translate(name, A, A) succeeds and returns the same name
with distance 0, provided every stored entry of A at distance 0 from the
looked-up coordinate carries that very name (in particular whenever no two
entries share a coordinate and no two names collide after case folding).
Without that proviso a coincident differently-named entry can be returned
instead, as the counterexample shows. -/
theorem C5_translate_roundtrip (s : RegistryState) (loc : String)
    (dict : ColorDictionary) (nm : String) (c : Color)
    (hreg : lookupKey s.dictionaries loc = some dict)
    (hok : CacheOK dict (some s.trees))
    (hlook : lookupColorSt s nm (.inl loc) = some c)
    (huniq : ∀ l ∈ LEVELS, ∀ ns, tierOf dict l = some ns →
      ∀ i, i < ns.names.length → sqDist c (getPt ns.colors i) = 0 →
        ns.names.getD i "" = nm) :
    ∃ r, (translateSt s nm (.inl loc) (.inl loc)).1 = some r ∧
      r.name = nm ∧ r.distSq = 0 ∧ r.sourceColor = c ∧ r.targetColor = c := by
  have hregd : resolveDict s (.inl loc) = some dict := by
    simp [resolveDict, hreg]
  obtain ⟨l0, hl0, i0, hmem0⟩ := lookupColorSt_mem s nm (.inl loc) dict c hregd hlook
  cases hres : (nameColorSt s c (.inl loc) ⟨none, none⟩).1 with
  | none =>
    exfalso
    rw [nameColorSt_inl s c loc dict _ hreg] at hres
    dsimp only at hres
    rw [getLevels_none] at hres
    have hskips := (nameLoop_none_iff c dict ⟨none, none⟩ LEVELS
      (some s.trees) none hok).mp hres
    rcases hskips.2 l0 hl0 with hnil | ⟨tv, htv, _⟩
    · rw [hnil] at hmem0
      simp at hmem0
    · exact Option.noConfusion (htv : (none : Option ℚ) = some tv)
  | some out =>
    have hres' := hres
    rw [nameColorSt_inl s c loc dict _ hreg] at hres'
    dsimp only at hres'
    rw [getLevels_none] at hres'
    have hlvl : out.level ∈ LEVELS := by
      rcases nameLoop_mem c dict ⟨none, none⟩ LEVELS (some s.trees) none hok out
          hres' with hb | hmem
      · exact absurd hb (by simp)
      · exact hmem
    rcases nameLoop_main c dict ⟨none, none⟩ rfl LEVELS (some s.trees) none hok out
        hres' with ⟨hb, _⟩ | ⟨_, _, _, _, _, hglob, hatt⟩
    · exact absurd hb (by simp)
    · obtain ⟨ns, i, hns, hi, hname, hcolor, hdist, _⟩ := hatt
      have hle : out.distSq ≤ 0 := by
        have h := hglob l0 hl0 (c, i0) hmem0
        rwa [sqDist_self] at h
      have hge : 0 ≤ out.distSq := by
        rw [hdist]
        exact sqDist_nonneg _ _
      have hzero : out.distSq = 0 := le_antisymm hle hge
      have hdz : sqDist c (getPt ns.colors i) = 0 := by
        rw [← hdist, hzero]
      have hnm : out.name = nm := by
        rw [hname]
        exact huniq out.level hlvl ns hns i hi hdz
      have hcc : out.color = c := by
        rw [hcolor]
        exact (sqDist_eq_zero hdz).symm
      refine ⟨⟨out.name, c, out.color, out.distSq⟩, ?_, hnm, hzero, rfl, hcc⟩
      simp only [translateSt, hlook]
      rcases hp : nameColorSt s c (.inl loc) ⟨none, none⟩ with ⟨r0, s0⟩
      have hr0 : r0 = some out := by
        have h : (nameColorSt s c (.inl loc) ⟨none, none⟩).1 = r0 := congrArg Prod.fst hp
        rw [hres] at h
        exact h.symm
      subst hr0
      rfl

/-- A registry for the C5 counterexample: names "a" and "b" both stored at
the origin of the basic tier of locale "x". -/
def c5dict : ColorDictionary :=
  ColorDictionary.mk "x" "s" (some ⟨["a", "b"], [0, 0, 0, 0, 0, 0]⟩) none none

def c5s : RegistryState := ⟨[("x", c5dict)], []⟩

/-- C5 counterexample: translating "a" from locale "x" to locale "x"
succeeds but returns the name "b": the reverse lookup finds "a" first,
while the k-d tree of the coincident pair answers with index 1. -/
theorem C5_counterexample :
    ((translateSt c5s "a" (.inl "x") (.inl "x")).1).map TranslationResult.name =
      some "b" := by
  have hlook : lookupColorSt c5s "a" (.inl "x") = some (0, 0, 0) := rfl
  have h1 : (nameColorSt c5s (0, 0, 0) (.inl "x") ⟨none, none⟩).1 =
      some ⟨"b", (0, 0, 0), 0, "s", .basic⟩ := by
    have hk1 : treeKey "x" Level.basic = "x:basic" := rfl
    have hk2 : treeKey "x" Level.extended = "x:extended" := rfl
    have hk3 : treeKey "x" Level.traditional = "x:traditional" := rfl
    have hne1 : ("x:basic" : String) ≠ "x:extended" := by decide
    have hne2 : ("x:basic" : String) ≠ "x:traditional" := by decide
    have hne3 : ("x:extended" : String) ≠ "x:traditional" := by decide
    simp [nameColorSt, resolveDict, resolveTreeCache, lookupKey, nameLoop, getLevels,
      LEVELS, getTree, hk1, hk2, hk3, hne1, hne2, hne3, tierOf, makeColorFromSet,
      sqrtGtB, setKey, Option.bind, c5s, c5dict, KDTree.nearest, kdtreeNew,
      mkItems, getPt, build, searchNearest, distLtB, List.insertionSort,
      List.orderedInsert, axLeP, coordAt, sqDist, List.range_succ]
  simp only [translateSt, hlook]
  rcases hp : nameColorSt c5s (0, 0, 0) (.inl "x") ⟨none, none⟩ with ⟨r0, s0⟩
  have hr0 : r0 = some ⟨"b", (0, 0, 0), 0, "s", .basic⟩ := by
    have h : (nameColorSt c5s (0, 0, 0) (.inl "x") ⟨none, none⟩).1 = r0 :=
      congrArg Prod.fst hp
    rw [h1] at h
    exact h.symm
  subst hr0
  rfl

/-- Witness for the amended C5 at a concrete registry. -/
theorem C5_translate_roundtrip_witness :
    (lookupKey wst.dictionaries "y" = some wdict ∧
      lookupColorSt wst "a" (.inl "y") = some (0, 0, 0)) ∧
    ∃ r, (translateSt wst "a" (.inl "y") (.inl "y")).1 = some r ∧
      r.name = "a" ∧ r.distSq = 0 ∧ r.sourceColor = ((0 : ℚ), (0 : ℚ), (0 : ℚ)) ∧
      r.targetColor = ((0 : ℚ), (0 : ℚ), (0 : ℚ)) := by
  have hlook : lookupColorSt wst "a" (.inl "y") = some (0, 0, 0) := rfl
  have huniq : ∀ l ∈ LEVELS, ∀ ns, tierOf wdict l = some ns →
      ∀ i, i < ns.names.length → sqDist (0, 0, 0) (getPt ns.colors i) = 0 →
        ns.names.getD i "" = "a" := by
    intro l _ ns hns i hi _
    cases l with
    | basic =>
      injection hns with hns
      subst hns
      have hi0 : i = 0 := Nat.lt_one_iff.mp hi
      subst hi0
      rfl
    | extended => exact Option.noConfusion hns
    | traditional => exact Option.noConfusion hns
  exact ⟨⟨rfl, hlook⟩,
    C5_translate_roundtrip wst "y" wdict "a" (0, 0, 0) rfl wst_cacheOK hlook huniq⟩

end IntlColor
